import Mathlib

/-!
Verification development for `src/lib/elements/clone.py` of the inkstitch fork
(clone materialization, fill-angle derivation, scoped teardown).

The SVG document is modelled as a rose tree of nodes addressed by index paths.
Affine transforms follow inkex's `Transform` class: a 2x3 matrix `(a b c d e f)`
mapping `(x, y)` to `(a*x + c*y + e, b*x + d*y + f)`; `@` is matrix composition
(right operand applied first) and unary minus is the matrix inverse (inkex's
`Transform.__neg__` inverts the matrix, it is not a coefficient-wise negation).
Matrix arithmetic is modelled exactly over `ℚ`; the transcendental angle
extraction (`math.degrees`, `atan2` via `Vector2d.angle`, `rotate(..)` matrices)
is modelled over `ℝ` with `Complex.arg` playing the role of `atan2`.
-/

/-- A 2x3 affine matrix in inkex's coefficient order `(a, b, c, d, e, f)`:
column-major for the linear block, `(e, f)` the translation. -/
structure Transform (α : Type) where
  a : α
  b : α
  c : α
  d : α
  e : α
  f : α
deriving DecidableEq, Repr

namespace Transform

/-- inkex `Transform.__matmul__`: matrix product, the right operand applied first. -/
def matmul {α : Type} [Field α] (A B : Transform α) : Transform α :=
  ⟨A.a * B.a + A.c * B.b,
   A.b * B.a + A.d * B.b,
   A.a * B.c + A.c * B.d,
   A.b * B.c + A.d * B.d,
   A.a * B.e + A.c * B.f + A.e,
   A.b * B.e + A.d * B.f + A.f⟩

/-- inkex `Transform.__neg__`: the inverse transform (invert the linear block,
then the translation), translated from inkex `transforms.py`. -/
def inkexNeg {α : Type} [Field α] (t : Transform α) : Transform α :=
  let det := t.a * t.d - t.b * t.c
  let na := t.d / det
  let nd := t.a / det
  let nb := -t.b / det
  let nc := -t.c / det
  ⟨na, nb, nc, nd, -(na * t.e + nc * t.f), -(nb * t.e + nd * t.f)⟩

/-- `Transform((t.a, t.b, t.c, t.d, 0.0, 0.0))` as used at clone.py line 125 and 185. -/
def stripTranslation {α : Type} [Field α] (t : Transform α) : Transform α :=
  ⟨t.a, t.b, t.c, t.d, 0, 0⟩

/-- inkex `Transform.apply_to_point`. -/
def applyToPoint {α : Type} [Field α] (t : Transform α) (p : α × α) : α × α :=
  (t.a * p.1 + t.c * p.2 + t.e, t.b * p.1 + t.d * p.2 + t.f)

/-- The identity transform (`Transform(None)`, a node without a transform attribute). -/
def ident {α : Type} [Field α] : Transform α := ⟨1, 0, 0, 1, 0, 0⟩

/-- inkex `Transform(scale=(sx, sy))`, as composed by `Transform.add_scale`. -/
def scaleT {α : Type} [Field α] (sx sy : α) : Transform α := ⟨sx, 0, 0, sy, 0, 0⟩

end Transform

/-- The spec's `negate_of` (§4.3): "the algebraic additive inverse of each matrix
coefficient of the rotation/scale sub-block (translation zeroed)".  This is the
claim-side definition, written from the spec's words, to be compared with what
the code (inkex unary minus = matrix inverse) computes. -/
def negate_of {α : Type} [Field α] (t : Transform α) : Transform α :=
  ⟨-t.a, -t.b, -t.c, -t.d, 0, 0⟩

/-! ## The document model -/

/-- Node classification by SVG tag, as used by `clone_to_elements` and
`clone_elements`: a tag in `EMBROIDERABLE_TAGS`, the `SVG_GROUP_TAG`, the
`SVG_USE_TAG` (clones), or anything else. -/
inductive NodeTag where
  | embroiderable
  | group
  | use
  | other
deriving DecidableEq, Repr

/-- Value of the `inkstitch:angle` attribute of a node.  An original document
carries numeric values (`num`); the materializer writes either a plain number
(override mode, exactly representable) or, in derived mode, the value
`-degrees(((angle_transform @ rotate(-aLocal)).apply_to_point((1,0))).angle)`
(negated again if `flip`), recorded symbolically as `derivedA` because it is
transcendental; its real value is given by `avalR` below. -/
inductive AVal where
  | num (v : ℚ)
  | derivedA (t : Transform ℚ) (aLocal : ℚ) (flip : Bool)
deriving DecidableEq, Repr

/-- The attributes of one SVG node that clone.py reads or writes:
its tag, its own `transform` attribute (identity when absent), its
`inkstitch:angle` attribute, its `xlink:href` reference (modelled as an
absolute index path into the document), and the clone parameters
`angle` (`clone_fill_angle`) and `flip_angle`. -/
structure NodeData where
  tag : NodeTag
  transform : Transform ℚ
  angle : Option AVal
  href : Option (List ℕ)
  cloneFillAngle : Option ℚ
  flipAngle : Bool
deriving DecidableEq, Repr

/-- Replace the `transform` attribute (clone.py line 118). -/
def NodeData.setTransform (d : NodeData) (t : Transform ℚ) : NodeData :=
  ⟨d.tag, t, d.angle, d.href, d.cloneFillAngle, d.flipAngle⟩

/-- Replace the `inkstitch:angle` attribute (clone.py line 144). -/
def NodeData.setAngle (d : NodeData) (v : AVal) : NodeData :=
  ⟨d.tag, d.transform, some v, d.href, d.cloneFillAngle, d.flipAngle⟩

/-- An SVG document subtree: a node with attributes and an ordered child list. -/
inductive NTree where
  | node (data : NodeData) (children : List NTree)

def NTree.data : NTree → NodeData
  | .node d _ => d

def NTree.children : NTree → List NTree
  | .node _ cs => cs

/-! ### Path-addressed access and mutation -/

/-- Nth element of a list (our own definition, to control equation lemmas). -/
def listNth {α : Type} : ℕ → List α → Option α
  | _, [] => none
  | 0, x :: _ => some x
  | n + 1, _ :: xs => listNth n xs

/-- Apply a function to the nth element of a list, identity elsewhere. -/
def modifyIdx {α : Type} : ℕ → (α → α) → List α → List α
  | _, _, [] => []
  | 0, g, x :: xs => g x :: xs
  | n + 1, g, x :: xs => x :: modifyIdx n g xs

/-- Remove the nth element of a list (lxml `parent.remove(child)`). -/
def eraseNth {α : Type} : ℕ → List α → List α
  | _, [] => []
  | 0, _ :: xs => xs
  | n + 1, x :: xs => x :: eraseNth n xs

/-- The subtree at an index path (`none` if the path does not exist). -/
def getAt : List ℕ → NTree → Option NTree
  | [], t => some t
  | i :: p, .node _ cs =>
    match listNth i cs with
    | some c => getAt p c
    | none => none

/-- Modify the attributes of the node at a path (identity if the path is absent). -/
def modifyAt : List ℕ → (NodeData → NodeData) → NTree → NTree
  | [], g, .node d cs => .node (g d) cs
  | i :: p, g, .node d cs => .node d (modifyIdx i (fun c => modifyAt p g c) cs)

/-- Append a new child under the node at a path (lxml `parent.add(node)`). -/
def appendChildAt : List ℕ → NTree → NTree → NTree
  | [], newChild, .node d cs => .node d (cs ++ [newChild])
  | i :: p, newChild, .node d cs => .node d (modifyIdx i (fun c => appendChildAt p newChild c) cs)

/-- Remove the child at index `idx` of the node at a path. -/
def removeChildAt : List ℕ → ℕ → NTree → NTree
  | [], idx, .node d cs => .node d (eraseNth idx cs)
  | i :: p, idx, .node d cs => .node d (modifyIdx i (fun c => removeChildAt p idx c) cs)

/-- inkex `BaseElement.composed_transform()` at the node addressed by the path:
the product of the `transform` attributes of every node from the document root
down to (and including) the node. -/
def composedFrom (acc : Transform ℚ) : List ℕ → NTree → Option (Transform ℚ)
  | [], t => some (acc.matmul t.data.transform)
  | i :: p, .node d cs =>
    match listNth i cs with
    | some c => composedFrom (acc.matmul d.transform) p c
    | none => none

/-- See `composedFrom`; accumulation starts at the identity. -/
def composedTransform (p : List ℕ) (t : NTree) : Option (Transform ℚ) :=
  composedFrom Transform.ident p t

/-! ### Descendants (lxml `iterdescendants`, document order) -/

mutual

/-- All strict descendants of a node, in document (preorder) order, as
`(relative path, attributes)` pairs — the traversal behind
`node.iterdescendants()` in `clone_to_elements`. -/
def descPairs : NTree → List (List ℕ × NodeData)
  | .node _ cs => descPairsList 0 cs

/-- Descendants contributed by a child list, the first child having index `i`. -/
def descPairsList : ℕ → List NTree → List (List ℕ × NodeData)
  | _, [] => []
  | i, c :: rest =>
    ([i], c.data) :: ((descPairs c).map (fun q => (i :: q.1, q.2)) ++ descPairsList (i + 1) rest)

end

/-- Modelled from the spec: `node_to_elements` (`lib/elements/utils.py`, not under
`src/`) turns one node into its embroidery elements.  Per spec §4.2, an
embroiderable node yields a drawable and "non-embroiderable descendants
(decoration, other clones, text labels, etc.) are skipped", so we model it as
yielding exactly one drawable for an embroiderable node and nothing otherwise. -/
def nodeYieldsElement (d : NodeData) : Bool := d.tag == NodeTag.embroiderable

/-- `Clone.clone_to_elements` (clone.py lines 72–80) restricted to the data the
claims need: the (absolute) paths of the drawables obtained from the node at
path `base` with subtree `t` — the node itself when embroiderable, the
embroiderable descendants (document order) when it is a group, nothing else. -/
def cloneToElementPaths (base : List ℕ) (t : NTree) : List (List ℕ) :=
  if t.data.tag = NodeTag.embroiderable then [base]
  else if t.data.tag = NodeTag.group then
    (descPairs t).filterMap (fun q => if nodeYieldsElement q.2 then some (base ++ q.1) else none)
  else []

/-! ### The materialization scope (`Clone.clone_elements`, lines 94–149) -/

/-- `float(element.node.get(INKSTITCH_ATTRIBS['angle'], 0))` (line 133): the
node's `inkstitch:angle` attribute, defaulting to `0` when absent.  Reading a
symbolic `derivedA` value back as a number is not representable (it never
happens inside one materialization scope: each drawable's attribute is read
before it is written, and drawable paths are distinct), so it yields `none`. -/
def readAngleAt (q : List ℕ) (doc : NTree) : Option ℚ :=
  match getAt q doc with
  | none => none
  | some t =>
    match t.data.angle with
    | none => some 0
    | some (.num v) => some v
    | some (.derivedA _ _ _) => none

/-- The per-drawable loop of `clone_elements` (lines 128–144): for each element
path in order, in derived mode read its local angle and write the derived
value (recorded symbolically), in override mode write `clone_fill_angle`;
either way negated when `flip_angle` is set.  Returns the final document and
the `(path, written value)` list, in order. -/
def assignLoop (angT : Option (Transform ℚ)) (fillAngle : Option ℚ) (flip : Bool) :
    List (List ℕ) → NTree → Option (NTree × List (List ℕ × AVal))
  | [], doc => some (doc, [])
  | q :: qs, doc =>
    match fillAngle with
    | none =>
      match angT, readAngleAt q doc with
      | some t0, some aLocal =>
        let v : AVal := .derivedA t0 aLocal flip
        match assignLoop angT fillAngle flip qs (modifyAt q (fun d => d.setAngle v) doc) with
        | some (docF, rest) => some (docF, (q, v) :: rest)
        | none => none
      | _, _ => none
    | some phi =>
      let v : AVal := .num (if flip then -phi else phi)
      match assignLoop angT fillAngle flip qs (modifyAt q (fun d => d.setAngle v) doc) with
      | some (docF, rest) => some (docF, (q, v) :: rest)
      | none => none

/-- Everything one run of the `clone_elements` context manager produces:
the drawable paths it yields, the angle written to each, the derived-mode
`angle_transform` (lines 122–125) when one was computed, the document as the
caller sees it at the `yield`, and the document after the `finally` teardown. -/
structure CloneRun where
  elements : List (List ℕ)
  assigned : List (List ℕ × AVal)
  angleTransform : Option (Transform ℚ)
  midDoc : NTree
  finalDoc : NTree

/-- `source_node.tag in EMBROIDERABLE_TAGS or source_node.tag == SVG_GROUP_TAG`
(the negation of the short-circuit test at line 104). -/
def eligibleTag (t : NodeTag) : Bool := t == NodeTag.embroiderable || t == NodeTag.group

/-- One run of `Clone.clone_elements` (clone.py lines 94–149) for the clone at
`clonePath`.  `none` models a raised failure before any drawable processing
(broken reference, missing parent, or an unrepresentable attribute read):
in the Python these propagate before or outside the `try`, with nothing left
to clean up.  Steps, in code order: resolve `href` (line 103), short-circuit
when the source is neither embroiderable nor a group (104–106), deep-copy the
source and append it to the clone's parent (111–113), overwrite the copy's
transform with `clone_transform @ copy_transform` (118), in derived mode
compute `angle_transform` from the two composed transforms (120–125), resolve
the copy's drawables (127), assign angles (128–144), yield, and remove the
copy in the `finally` (147–149). -/
def cloneElementsRun (doc : NTree) (clonePath : List ℕ) : Option CloneRun :=
  match getAt clonePath doc with
  | none => none
  | some cloneNode =>
    match cloneNode.data.href with
    | none => none
    | some sourcePath =>
      match getAt sourcePath doc with
      | none => none
      | some sourceNode =>
        if eligibleTag sourceNode.data.tag = false then
          some ⟨[], [], none, doc, doc⟩
        else
          if clonePath = [] then none
          else
            let pp := clonePath.dropLast
            match getAt pp doc with
            | none => none
            | some parentNode =>
              let idx := parentNode.children.length
              let copyPath := pp ++ [idx]
              let doc1 := appendChildAt pp sourceNode doc
              let doc2 := modifyAt copyPath
                (fun d => d.setTransform (cloneNode.data.transform.matmul sourceNode.data.transform)) doc1
              match getAt copyPath doc2 with
              | none => none
              | some copyNode =>
                let elems := cloneToElementPaths copyPath copyNode
                match cloneNode.data.cloneFillAngle with
                | none =>
                  match composedTransform sourcePath doc2, composedTransform copyPath doc2 with
                  | some sourceT, some clonedT =>
                    let angT := (clonedT.matmul sourceT.inkexNeg).stripTranslation
                    match assignLoop (some angT) none cloneNode.data.flipAngle elems doc2 with
                    | some (docMid, asg) =>
                      some ⟨elems, asg, some angT, docMid, removeChildAt pp idx docMid⟩
                    | none => none
                  | _, _ => none
                | some phi =>
                  match assignLoop none (some phi) cloneNode.data.flipAngle elems doc2 with
                  | some (docMid, asg) =>
                    some ⟨elems, asg, none, docMid, removeChildAt pp idx docMid⟩
                  | none => none

/-! ### The stitch-group pipeline (`Clone.to_stitch_groups`, lines 82–92) -/

/-- The loop body of `to_stitch_groups`: each element's stitch-group production
is the external capability `f` (which may raise, modelled by `Except`); a
non-empty yield extends the accumulated patches and becomes the new
`last_patch`, an empty yield changes nothing. -/
def toSGLoop {E SG : Type} (f : List ℕ → Option SG → Except E (List SG)) :
    List (List ℕ) → Option SG → List SG → Except E (List SG)
  | [], _, patches => .ok patches
  | q :: qs, lastPatch, patches =>
    match f q lastPatch with
    | .error err => .error err
    | .ok [] => toSGLoop f qs lastPatch patches
    | .ok (g :: gs) =>
      toSGLoop f qs (some ((g :: gs).getLast (List.cons_ne_nil g gs))) (patches ++ (g :: gs))

/-- `Clone.to_stitch_groups`: run the materialization scope, feed the yielded
elements through the loop, and let the context manager's `finally` remove the
duplicate whether or not the loop raised.  The result pairs the document
after the scope with the loop's outcome (the raised failure, if any,
propagating unchanged). -/
def toStitchGroupsRun {E SG : Type} (f : List ℕ → Option SG → Except E (List SG))
    (doc : NTree) (clonePath : List ℕ) (lastPatch : Option SG) :
    Option (NTree × Except E (List SG)) :=
  match cloneElementsRun doc clonePath with
  | none => none
  | some run => some (run.finalDoc, toSGLoop f run.elements lastPatch [])

/-- Claim-side pipeline (spec §4.5, written from the spec's words): each drawable
is invoked with the current context; a non-empty yield is appended and its last
group becomes the context, an empty yield leaves the context unchanged; the
output is the order-preserving concatenation. -/
def pipeSpec {SG : Type} (g : List ℕ → Option SG → List SG) :
    List (List ℕ) → Option SG → List SG
  | [], _ => []
  | q :: qs, ctx =>
    let gs := g q ctx
    gs ++ pipeSpec g qs
      (match gs with
       | [] => ctx
       | h :: t => some ((h :: t).getLast (List.cons_ne_nil h t)))

/-! ### `Clone.get_cache_key_data` (lines 67–70) -/

/-- `Clone.get_cache_key_data`: resolve the clone's source in the *original*
document (no materialized copy) and collect each source element's cache key.
The external `EmbroideryElement.get_cache_key` is abstracted as `k`, a function
of the element node's composed transform, its subtree, and `previous_stitch`. -/
def get_cache_key_data {K PS : Type} (k : Option (Transform ℚ) → Option NTree → PS → K)
    (doc : NTree) (clonePath : List ℕ) (previousStitch : PS) : Option (List K) :=
  match getAt clonePath doc with
  | none => none
  | some cloneNode =>
    match cloneNode.data.href with
    | none => none
    | some sourcePath =>
      match getAt sourcePath doc with
      | none => none
      | some sourceNode =>
        some ((cloneToElementPaths sourcePath sourceNode).map
          (fun q => k (composedTransform q doc) (getAt q doc) previousStitch))

/-! ### Real-valued angle semantics -/

/-- `math.radians`. -/
noncomputable def radiansOf (x : ℝ) : ℝ := x * Real.pi / 180

/-- `math.degrees`. -/
noncomputable def degreesOf (x : ℝ) : ℝ := x * 180 / Real.pi

/-- inkex `Vector2d.angle`, i.e. `atan2(y, x)`, modelled as the principal
argument of `x + y*i`, with range `(-π, π]`. -/
noncomputable def atan2Angle (p : ℝ × ℝ) : ℝ := Complex.arg (p.1 + p.2 * Complex.I)

/-- The matrix of SVG `rotate(θ)` (θ in degrees, clockwise-positive in SVG's
y-down coordinates): `(cos θ, sin θ, -sin θ, cos θ, 0, 0)`.  At clone.py line
135 the rotation string is built as `f"rotate(${-element_angle})"`; the stray
dollar sign from the f-string is skipped by inkex's numeric tokenizer (its
transform parser extracts the signed number from the argument text), so the
string still parses as a rotation by `-element_angle` degrees. -/
noncomputable def rotateDeg (theta : ℝ) : Transform ℝ :=
  ⟨Real.cos (radiansOf theta), Real.sin (radiansOf theta),
   -Real.sin (radiansOf theta), Real.cos (radiansOf theta), 0, 0⟩

/-- Coefficient-wise embedding of an exact matrix into the real model. -/
noncomputable def toRT (t : Transform ℚ) : Transform ℝ :=
  ⟨(t.a : ℝ), (t.b : ℝ), (t.c : ℝ), (t.d : ℝ), (t.e : ℝ), (t.f : ℝ)⟩

/-- The real value of an `inkstitch:angle` attribute: a plain number, or the
derived-mode value of lines 132–142:
`-degrees(((angle_transform @ rotate(-a_local)).apply_to_point((1,0))).angle)`,
negated once more when `flip_angle` is set. -/
noncomputable def avalR : AVal → ℝ
  | .num v => (v : ℝ)
  | .derivedA t aLocal flip =>
    let base := -(degreesOf (atan2Angle
      (((toRT t).matmul (rotateDeg (-(aLocal : ℝ)))).applyToPoint (1, 0))))
    if flip then -base else base

/-! ### `angle_for_transform` and `is_transform_flipped` (lines 181–194) -/

/-- `is_transform_flipped` (lines 191–194): the linear block has negative
determinant, `t.a*t.d < t.b*t.c`. -/
def is_transform_flipped (t : Transform ℝ) : Prop := t.a * t.d < t.b * t.c

noncomputable instance (t : Transform ℝ) : Decidable ( is_transform_flipped t) :=
  inferInstanceAs (Decidable (_ < _))

/-- `angle_for_transform` (lines 181–188): strip the translation, undo a flip by
composing with `scale(-1, 1)`, and return the polar angle (degrees) of the
image of `(1, 0)`. -/
noncomputable def angle_for_transform (t : Transform ℝ) : ℝ :=
  let t1 := t.stripTranslation
  let t2 := if is_transform_flipped t1 then t1.matmul (Transform.scaleT (-1) 1) else t1
  degreesOf (atan2Angle (t2.applyToPoint (1, 0)))

/-! ### Path bookkeeping -/

/-- `initSegB p q` means `p` is an initial segment of `q` (possibly `q` itself):
the node addressed by `q` lies in the subtree rooted at the node addressed by `p`. -/
def initSegB : List ℕ → List ℕ → Bool
  | [], _ => true
  | _ :: _, [] => false
  | a :: p, b :: q => a == b && initSegB p q

/-- Replace the clone's own parameters (`transform`, `clone_fill_angle`,
`flip_angle`) of a node, leaving everything else unchanged (used to state that
`get_cache_key_data` is independent of them). -/
def NodeData.setCloneParams (d : NodeData) (t : Transform ℚ) (phi : Option ℚ)
    (fl : Bool) : NodeData :=
  ⟨d.tag, t, d.angle, d.href, phi, fl⟩

/-! ### Concrete example documents -/

/-- An embroiderable source node with no transform and no explicit angle. -/
def srcA : NTree := .node ⟨NodeTag.embroiderable, Transform.ident, none, none, none, false⟩ []

/-- A clone (`use`) node referencing `srcA` at path `[0]`, in derived mode. -/
def cloneA : NTree := .node ⟨NodeTag.use, Transform.ident, none, some [0], none, false⟩ []

/-- Document: root with children `[srcA, cloneA]`; the clone is at path `[1]`. -/
def docA : NTree := .node ⟨NodeTag.other, Transform.ident, none, none, none, false⟩
  [srcA, cloneA]

/-- The materialized copy of `srcA` at the yield point of a run over `docA`. -/
def copyA : NTree := .node ⟨NodeTag.embroiderable, ⟨1, 0, 0, 1, 0, 0⟩,
  some (AVal.derivedA ⟨1, 0, 0, 1, 0, 0⟩ 0 false), none, none, false⟩ []

/-- The document `docA` at the yield point (copy appended as third child). -/
def midA : NTree := .node ⟨NodeTag.other, Transform.ident, none, none, none, false⟩
  [srcA, cloneA, copyA]

/-- The run of `clone_elements` over `docA`. -/
def runA : CloneRun := ⟨[[2]], [([2], AVal.derivedA ⟨1, 0, 0, 1, 0, 0⟩ 0 false)],
  some ⟨1, 0, 0, 1, 0, 0⟩, midA, docA⟩

/-- A clone of `srcA` with `clone_fill_angle = 45` and `flip_angle` set. -/
def cloneB : NTree := .node ⟨NodeTag.use, Transform.ident, none, some [0], some 45, true⟩ []

/-- Document for the override-mode example; the clone is at path `[1]`. -/
def docB : NTree := .node ⟨NodeTag.other, Transform.ident, none, none, none, false⟩
  [srcA, cloneB]

/-- The copy at the yield point of a run over `docB` (angle overridden to `-45`). -/
def copyB : NTree := .node ⟨NodeTag.embroiderable, ⟨1, 0, 0, 1, 0, 0⟩,
  some (AVal.num (-45)), none, none, false⟩ []

/-- `docB` at the yield point. -/
def midB : NTree := .node ⟨NodeTag.other, Transform.ident, none, none, none, false⟩
  [srcA, cloneB, copyB]

/-- The run of `clone_elements` over `docB`. -/
def runB : CloneRun := ⟨[[2]], [([2], AVal.num (-45))], none, midB, docB⟩

/-- A non-embroiderable, non-group source node. -/
def srcC : NTree := .node ⟨NodeTag.other, Transform.ident, none, none, none, false⟩ []

/-- Document whose clone (at `[1]`) references an ineligible source. -/
def docC : NTree := .node ⟨NodeTag.other, Transform.ident, none, none, none, false⟩
  [srcC, .node ⟨NodeTag.use, Transform.ident, none, some [0], none, false⟩ []]

/-- Document whose clone (at `[0]`) references itself: a direct clone cycle. -/
def docD : NTree := .node ⟨NodeTag.other, Transform.ident, none, none, none, false⟩
  [.node ⟨NodeTag.use, Transform.ident, none, some [0], none, false⟩ []]

/-- A plain embroiderable leaf. -/
def e1 : NTree := .node ⟨NodeTag.embroiderable, Transform.ident, none, none, none, false⟩ []

/-- A group of three embroiderable leaves. -/
def grpE : NTree := .node ⟨NodeTag.group, Transform.ident, none, none, none, false⟩
  [e1, e1, e1]

/-- Document with a clone (at `[1]`) of the three-drawable group `grpE`. -/
def docE : NTree := .node ⟨NodeTag.other, Transform.ident, none, none, none, false⟩
  [grpE, .node ⟨NodeTag.use, Transform.ident, none, some [0], none, false⟩ []]

/-- A leaf of the materialized group copy at the yield point over `docE`. -/
def e1M : NTree := .node ⟨NodeTag.embroiderable, Transform.ident,
  some (AVal.derivedA ⟨1, 0, 0, 1, 0, 0⟩ 0 false), none, none, false⟩ []

/-- The materialized copy of `grpE` at the yield point. -/
def copyE : NTree := .node ⟨NodeTag.group, ⟨1, 0, 0, 1, 0, 0⟩, none, none, none, false⟩
  [e1M, e1M, e1M]

/-- `docE` at the yield point. -/
def midE : NTree := .node ⟨NodeTag.other, Transform.ident, none, none, none, false⟩
  [grpE, .node ⟨NodeTag.use, Transform.ident, none, some [0], none, false⟩ [], copyE]

/-- The run of `clone_elements` over `docE`. -/
def runE : CloneRun := ⟨[[2, 0], [2, 1], [2, 2]],
  [([2, 0], AVal.derivedA ⟨1, 0, 0, 1, 0, 0⟩ 0 false),
   ([2, 1], AVal.derivedA ⟨1, 0, 0, 1, 0, 0⟩ 0 false),
   ([2, 2], AVal.derivedA ⟨1, 0, 0, 1, 0, 0⟩ 0 false)],
  some ⟨1, 0, 0, 1, 0, 0⟩, midE, docE⟩

/-- A stitch-group producer that raises on the second drawable of the copy. -/
def fE : List ℕ → Option ℕ → Except ℕ (List ℕ) :=
  fun q _ => if q = [2, 1] then Except.error 7 else Except.ok [5]

/-- A trivial cache-key function (a constant), used to instantiate the
cache-key independence statement on a concrete document. -/
def k0 : Option (Transform ℚ) → Option NTree → ℕ → ℕ := fun _ _ _ => 0

/-! ## Supporting lemmas -/

theorem initSegB_iff {p q : List ℕ} : initSegB p q = true ↔ ∃ r, q = p ++ r := by
  induction p generalizing q with
  | nil => simp [initSegB]
  | cons a p ih =>
    cases q with
    | nil => simp [initSegB]
    | cons b q =>
      simp only [initSegB, Bool.and_eq_true, beq_iff_eq]
      constructor
      · rintro ⟨rfl, h2⟩
        obtain ⟨r, rfl⟩ := ih.mp h2
        exact ⟨r, rfl⟩
      · rintro ⟨r, hr⟩
        rw [List.cons_append] at hr
        injection hr with h1 h2
        exact ⟨h1.symm, ih.mpr ⟨r, h2⟩⟩

theorem initSegB_append_self (p r : List ℕ) : initSegB p (p ++ r) = true :=
  initSegB_iff.mpr ⟨r, rfl⟩

theorem initSegB_refl (p : List ℕ) : initSegB p p = true := by
  simpa using initSegB_append_self p []

theorem initSegB_trans {p q r : List ℕ} (h1 : initSegB p q = true) (h2 : initSegB q r = true) :
    initSegB p r = true := by
  obtain ⟨u, hu⟩ := initSegB_iff.mp h1
  obtain ⟨v, hv⟩ := initSegB_iff.mp h2
  exact initSegB_iff.mpr ⟨u ++ v, by simp [hv, hu]⟩

theorem initSegB_total_of {p q r : List ℕ} (h1 : initSegB p r = true) (h2 : initSegB q r = true) :
    initSegB p q = true ∨ initSegB q p = true := by
  induction p generalizing q r with
  | nil => exact Or.inl rfl
  | cons a p ih =>
    cases q with
    | nil => exact Or.inr rfl
    | cons b q =>
      cases r with
      | nil => simp [initSegB] at h1
      | cons c r =>
        simp only [initSegB, Bool.and_eq_true, beq_iff_eq] at h1 h2
        rcases ih h1.2 h2.2 with h | h
        · exact Or.inl (by simp [initSegB, h1.1, h2.1, h])
        · exact Or.inr (by simp [initSegB, h1.1, h2.1, h])

/-! ### List lemmas -/

theorem listNth_of_lt {α : Type} {xs ys : List α} {i : ℕ} (h : i < xs.length) :
    listNth i (xs ++ ys) = listNth i xs := by
  induction xs generalizing i with
  | nil => simp at h
  | cons x xs ih =>
    cases i with
    | zero => rfl
    | succ n => simpa [listNth] using ih (by simpa using h)

theorem listNth_append_self {α : Type} (xs : List α) (y : α) :
    listNth xs.length (xs ++ [y]) = some y := by
  induction xs with
  | nil => rfl
  | cons x xs ih => simpa [listNth] using ih

theorem listNth_length {α : Type} (xs : List α) : listNth xs.length xs = none := by
  induction xs with
  | nil => rfl
  | cons x xs ih => simpa [listNth] using ih

theorem listNth_some_lt {α : Type} {xs : List α} {i : ℕ} {x : α} (h : listNth i xs = some x) :
    i < xs.length := by
  induction xs generalizing i with
  | nil => simp [listNth] at h
  | cons y ys ih =>
    cases i with
    | zero => simp
    | succ n => simpa using ih (by simpa [listNth] using h)

theorem listNth_modifyIdx {α : Type} (j : ℕ) (g : α → α) (xs : List α) (i : ℕ) :
    listNth i (modifyIdx j g xs) = if i = j then (listNth i xs).map g else listNth i xs := by
  induction xs generalizing i j with
  | nil => simp [listNth, modifyIdx]
  | cons x xs ih =>
    cases j with
    | zero => cases i with
      | zero => simp [listNth, modifyIdx]
      | succ n => simp [listNth, modifyIdx]
    | succ m => cases i with
      | zero => simp [listNth, modifyIdx]
      | succ n => simpa [listNth, modifyIdx, Nat.succ_inj] using ih m n

theorem modifyIdx_modifyIdx {α : Type} (j : ℕ) (g h : α → α) (xs : List α) :
    modifyIdx j g (modifyIdx j h xs) = modifyIdx j (fun x => g (h x)) xs := by
  induction xs generalizing j with
  | nil => cases j <;> rfl
  | cons x xs ih =>
    cases j with
    | zero => simp [modifyIdx]
    | succ m => simp [modifyIdx, ih]

theorem modifyIdx_congr_of_pointwise {α : Type} {j : ℕ} {g h : α → α} (xs : List α)
    (hgh : ∀ x, g x = h x) : modifyIdx j g xs = modifyIdx j h xs := by
  induction xs generalizing j with
  | nil => cases j <;> rfl
  | cons x xs ih =>
    cases j with
    | zero => simp [modifyIdx, hgh]
    | succ m => simp [modifyIdx, ih]

theorem modifyIdx_id_of {α : Type} {j : ℕ} {g : α → α} {xs : List α} {x : α}
    (hx : listNth j xs = some x) (hg : g x = x) : modifyIdx j g xs = xs := by
  induction xs generalizing j with
  | nil => cases j <;> rfl
  | cons y ys ih =>
    cases j with
    | zero =>
      simp only [listNth, Option.some.injEq] at hx
      simp [modifyIdx, hx ▸ hg]
    | succ m =>
      simp only [listNth] at hx
      simp [modifyIdx, ih hx]

theorem eraseNth_modifyIdx {α : Type} (j : ℕ) (g : α → α) (xs : List α) :
    eraseNth j (modifyIdx j g xs) = eraseNth j xs := by
  induction xs generalizing j with
  | nil => cases j <;> rfl
  | cons x xs ih =>
    cases j with
    | zero => simp [modifyIdx, eraseNth]
    | succ m => simp [modifyIdx, eraseNth, ih]

theorem eraseNth_append_self {α : Type} (xs : List α) (y : α) :
    eraseNth xs.length (xs ++ [y]) = xs := by
  induction xs with
  | nil => rfl
  | cons x xs ih => simpa [eraseNth] using ih

/-! ### Tree access lemmas -/

theorem getAt_append (p q : List ℕ) (t : NTree) :
    getAt (p ++ q) t = (getAt p t).bind (getAt q) := by
  induction p generalizing t with
  | nil => simp [getAt]
  | cons i p ih =>
    cases t with
    | node d cs =>
      simp only [List.cons_append, getAt]
      cases listNth i cs with
      | none => rfl
      | some c => simpa using ih c

theorem getAt_modifyAt_of_not_initSeg {q m : List ℕ} (g : NodeData → NodeData) (t : NTree)
    (h : initSegB q m = false) : getAt q (modifyAt m g t) = getAt q t := by
  induction q generalizing m t with
  | nil => simp [initSegB] at h
  | cons i q ih =>
    cases t with
    | node d cs =>
      cases m with
      | nil => simp [modifyAt, getAt]
      | cons j m =>
        simp only [modifyAt, getAt, listNth_modifyIdx]
        cases hij : i == j with
        | false =>
          have : ¬ i = j := by simpa using hij
          simp [this]
        | true =>
          have hij2 : i = j := by simpa using hij
          have hm : initSegB q m = false := by
            cases hqm : initSegB q m with
            | false => rfl
            | true => rw [initSegB, hij, hqm] at h; cases h
          subst hij2
          simp only [if_pos rfl]
          cases listNth i cs with
          | none => rfl
          | some c => simpa using ih c hm

theorem getAt_modifyAt_self {m : List ℕ} {t n : NTree} (g : NodeData → NodeData)
    (h : getAt m t = some n) :
    getAt m (modifyAt m g t) = some (NTree.node (g n.data) n.children) := by
  induction m generalizing t with
  | nil =>
    cases t with
    | node d cs =>
      simp only [getAt, Option.some.injEq] at h
      subst h
      simp [modifyAt, getAt, NTree.data, NTree.children]
  | cons i m ih =>
    cases t with
    | node d cs =>
      simp only [getAt] at h
      simp only [modifyAt, getAt, listNth_modifyIdx, if_pos rfl]
      cases hc : listNth i cs with
      | none => rw [hc] at h; cases h
      | some c =>
        rw [hc] at h
        simpa using ih h

theorem getAt_data_appendChildAt {q pp : List ℕ} {t n : NTree} (c : NTree)
    (h : getAt q t = some n) :
    (getAt q (appendChildAt pp c t)).map NTree.data = some n.data := by
  induction q generalizing pp t with
  | nil =>
    cases t with
    | node d cs =>
      simp only [getAt, Option.some.injEq] at h
      subst h
      cases pp <;> simp [appendChildAt, getAt, NTree.data]
  | cons i q ih =>
    cases t with
    | node d cs =>
      simp only [getAt] at h
      cases hc : listNth i cs with
      | none => simp [hc] at h
      | some ch =>
        simp only [hc] at h
        cases pp with
        | nil =>
          have hl : listNth i (cs ++ [c]) = some ch := by
            rw [listNth_of_lt (listNth_some_lt hc), hc]
          simp [appendChildAt, getAt, hl, h]
        | cons j pp =>
          simp only [appendChildAt, getAt, listNth_modifyIdx]
          by_cases hij : i = j
          · subst hij
            simp only [if_pos rfl, hc, Option.map]
            exact @ih pp _ h
          · simp [hij, hc, h]

theorem getAt_data_modifyAt_ne {q m : List ℕ} (g : NodeData → NodeData) (t : NTree)
    (h : q ≠ m) :
    (getAt q (modifyAt m g t)).map NTree.data = (getAt q t).map NTree.data := by
  induction q generalizing m t with
  | nil =>
    cases t with
    | node d cs =>
      cases m with
      | nil => exact absurd rfl h
      | cons j m => simp [modifyAt, getAt, NTree.data]
  | cons i q ih =>
    cases t with
    | node d cs =>
      cases m with
      | nil => simp [modifyAt, getAt]
      | cons j m =>
        simp only [modifyAt, getAt, listNth_modifyIdx]
        by_cases hij : i = j
        · subst hij
          have hqm : q ≠ m := fun hq => h (by rw [hq])
          simp only [if_pos rfl]
          cases listNth i cs with
          | none => rfl
          | some c => simpa using ih c hqm
        · simp only [if_neg hij]

theorem getAt_appendChildAt_self {pp : List ℕ} {t pn : NTree} (c : NTree)
    (h : getAt pp t = some pn) :
    getAt pp (appendChildAt pp c t) = some (NTree.node pn.data (pn.children ++ [c])) := by
  induction pp generalizing t with
  | nil =>
    cases t with
    | node d cs =>
      simp only [getAt, Option.some.injEq] at h
      subst h
      simp [appendChildAt, getAt, NTree.data, NTree.children]
  | cons i pp ih =>
    cases t with
    | node d cs =>
      simp only [getAt] at h
      cases hc : listNth i cs with
      | none => simp [hc] at h
      | some ch =>
        simp only [hc] at h
        simp only [appendChildAt, getAt, listNth_modifyIdx, if_pos rfl, hc]
        simpa using ih h

theorem getAt_fresh_none {pp : List ℕ} {t pn : NTree} (r : List ℕ)
    (h : getAt pp t = some pn) :
    getAt (pp ++ pn.children.length :: r) t = none := by
  induction pp generalizing t with
  | nil =>
    cases t with
    | node d cs =>
      simp only [getAt, Option.some.injEq] at h
      subst h
      simp [getAt, NTree.children, listNth_length]
  | cons i pp ih =>
    cases t with
    | node d cs =>
      simp only [getAt] at h
      simp only [List.cons_append, getAt]
      cases hc : listNth i cs with
      | none => rfl
      | some ch =>
        rw [hc] at h
        simpa using ih h

theorem not_initSeg_fresh {pp q : List ℕ} {t pn n : NTree}
    (hp : getAt pp t = some pn) (hq : getAt q t = some n) :
    initSegB (pp ++ [pn.children.length]) q = false := by
  cases hseg : initSegB (pp ++ [pn.children.length]) q with
  | false => rfl
  | true =>
    obtain ⟨r, rfl⟩ := initSegB_iff.mp hseg
    rw [List.append_assoc, List.singleton_append, getAt_fresh_none r hp] at hq
    cases hq

theorem getAt_ne_fresh_extension {pp q r : List ℕ} {t pn n : NTree}
    (hp : getAt pp t = some pn) (hq : getAt q t = some n) :
    q ≠ pp ++ pn.children.length :: r := by
  intro hqe
  rw [hqe, getAt_fresh_none r hp] at hq
  cases hq

/-! ### Composed-transform lemmas -/

theorem composedFrom_appendChildAt {acc : Transform ℚ} {q pp : List ℕ} {t : NTree} {x : Transform ℚ}
    (c : NTree) (h : composedFrom acc q t = some x) :
    composedFrom acc q (appendChildAt pp c t) = some x := by
  induction q generalizing pp t acc with
  | nil =>
    cases t with
    | node d cs =>
      cases pp <;> simpa [appendChildAt, composedFrom, NTree.data] using h
  | cons i q ih =>
    cases t with
    | node d cs =>
      simp only [composedFrom] at h
      cases hc : listNth i cs with
      | none => simp [hc] at h
      | some ch =>
        simp only [hc] at h
        cases pp with
        | nil =>
          have hl : listNth i (cs ++ [c]) = some ch := by
            rw [listNth_of_lt (listNth_some_lt hc), hc]
          simp [appendChildAt, composedFrom, hl, h, NTree.data]
        | cons j pp =>
          simp only [appendChildAt, composedFrom, listNth_modifyIdx]
          by_cases hij : i = j
          · subst hij
            simp only [if_pos rfl, hc, Option.map]
            exact @ih _ pp _ h
          · simp [hij, hc, h]

theorem composedFrom_modifyAt_of_not_initSeg {acc : Transform ℚ} {q m : List ℕ}
    (g : NodeData → NodeData) (t : NTree) (h : initSegB m q = false) :
    composedFrom acc q (modifyAt m g t) = composedFrom acc q t := by
  induction q generalizing m t acc with
  | nil =>
    cases t with
    | node d cs =>
      cases m with
      | nil => simp [initSegB] at h
      | cons j m => simp [modifyAt, composedFrom, NTree.data]
  | cons i q ih =>
    cases t with
    | node d cs =>
      cases m with
      | nil => simp [initSegB] at h
      | cons j m =>
        simp only [modifyAt, composedFrom, listNth_modifyIdx]
        by_cases hij : j = i
        · subst hij
          have hm : initSegB m q = false := by
            cases hqm : initSegB m q with
            | false => rfl
            | true => rw [initSegB, beq_self_eq_true, hqm] at h; cases h
          simp only [if_pos rfl]
          cases listNth j cs with
          | none => rfl
          | some c => simpa using ih c hm
        · have hij2 : ¬ i = j := fun hh => hij hh.symm
          simp only [if_neg hij2]

theorem composedFrom_extend {acc P : Transform ℚ} {p : List ℕ} {t n : NTree} {i : ℕ}
    (ci : NTree) (hget : getAt p t = some n) (hcomp : composedFrom acc p t = some P)
    (hci : listNth i n.children = some ci) :
    composedFrom acc (p ++ [i]) t = some (P.matmul ci.data.transform) := by
  induction p generalizing acc t with
  | nil =>
    cases t with
    | node d cs =>
      simp only [getAt, Option.some.injEq] at hget
      subst hget
      simp only [composedFrom, Option.some.injEq, NTree.data] at hcomp
      simp only [NTree.children] at hci
      simp [composedFrom, hci, NTree.data, hcomp]
  | cons j p ih =>
    cases t with
    | node d cs =>
      simp only [getAt] at hget
      simp only [composedFrom] at hcomp ⊢
      cases hc : listNth j cs with
      | none => simp [hc] at hcomp
      | some ch =>
        simp only [hc] at hget hcomp ⊢
        exact ih hget hcomp

theorem composedFrom_isSome_of_getAt {acc : Transform ℚ} {q : List ℕ} {t n : NTree}
    (h : getAt q t = some n) : ∃ x, composedFrom acc q t = some x := by
  induction q generalizing acc t with
  | nil => exact ⟨_, rfl⟩
  | cons i q ih =>
    cases t with
    | node d cs =>
      simp only [getAt] at h
      cases hc : listNth i cs with
      | none => simp [hc] at h
      | some ch =>
        simp only [hc] at h
        simpa [composedFrom, hc] using ih h

/-! ### Teardown lemmas -/

theorem removeChildAt_appendChildAt {pp : List ℕ} {t pn : NTree} (c : NTree)
    (h : getAt pp t = some pn) :
    removeChildAt pp pn.children.length (appendChildAt pp c t) = t := by
  induction pp generalizing t with
  | nil =>
    cases t with
    | node d cs =>
      simp only [getAt, Option.some.injEq] at h
      subst h
      simp [appendChildAt, removeChildAt, NTree.children, eraseNth_append_self]
  | cons i pp ih =>
    cases t with
    | node d cs =>
      simp only [getAt] at h
      cases hc : listNth i cs with
      | none => simp [hc] at h
      | some ch =>
        simp only [hc] at h
        simp only [appendChildAt, removeChildAt, modifyIdx_modifyIdx]
        rw [modifyIdx_id_of hc (ih h)]

theorem removeChildAt_modifyAt_inside {pp r : List ℕ} {i : ℕ} (g : NodeData → NodeData)
    (t : NTree) :
    removeChildAt pp i (modifyAt (pp ++ i :: r) g t) = removeChildAt pp i t := by
  induction pp generalizing t with
  | nil =>
    cases t with
    | node d cs =>
      simp [modifyAt, removeChildAt, eraseNth_modifyIdx]
  | cons j pp ih =>
    cases t with
    | node d cs =>
      simp only [List.cons_append, modifyAt, removeChildAt, modifyIdx_modifyIdx]
      exact congrArg (fun l => NTree.node d l) (modifyIdx_congr_of_pointwise cs (fun x => ih x))

/-! ### Attribute-read lemmas -/

theorem readAngleAt_congr_data {q : List ℕ} {d1 d2 : NTree}
    (h : (getAt q d1).map NTree.data = (getAt q d2).map NTree.data) :
    readAngleAt q d1 = readAngleAt q d2 := by
  unfold readAngleAt
  cases h1 : getAt q d1 with
  | none =>
    cases h2 : getAt q d2 with
    | none => rfl
    | some n2 => rw [h1, h2] at h; cases h
  | some n1 =>
    cases h2 : getAt q d2 with
    | none => rw [h1, h2] at h; cases h
    | some n2 =>
      rw [h1, h2] at h
      simp only [Option.map, Option.some.injEq] at h
      simp [h]

/-! ### Descendant-traversal lemmas -/

theorem mem_descPairsList_shape {q : List ℕ} {dd : NodeData} {cs : List NTree} {k : ℕ}
    (h : (q, dd) ∈ descPairsList k cs) : ∃ j r, q = j :: r ∧ k ≤ j := by
  induction cs generalizing k with
  | nil => simp [descPairsList] at h
  | cons c rest ih =>
    simp only [descPairsList, List.mem_cons, List.mem_append, List.mem_map] at h
    rcases h with h | h | h
    · injection h with h1 _
      exact ⟨k, [], h1, le_refl k⟩
    · obtain ⟨p, _, hp⟩ := h
      injection hp with h1 _
      exact ⟨k, p.1, h1.symm, le_refl k⟩
    · obtain ⟨j, r, hjr, hk⟩ := ih h
      exact ⟨j, r, hjr, le_trans (Nat.le_succ k) hk⟩

theorem mem_descPairs_ne_nil {q : List ℕ} {dd : NodeData} {t : NTree}
    (h : (q, dd) ∈ descPairs t) : q ≠ [] := by
  cases t with
  | node d cs =>
    rw [descPairs] at h
    obtain ⟨j, r, hjr, _⟩ := mem_descPairsList_shape h
    simp [hjr]

theorem mem_descPairsList_elim {q : List ℕ} {dd : NodeData} {cs : List NTree} {k : ℕ}
    (h : (q, dd) ∈ descPairsList k cs) :
    ∃ i r c, q = (k + i) :: r ∧ listNth i cs = some c ∧
      ((r = [] ∧ dd = c.data) ∨ (r, dd) ∈ descPairs c) := by
  induction cs generalizing k with
  | nil => simp [descPairsList] at h
  | cons c rest ih =>
    simp only [descPairsList, List.mem_cons, List.mem_append, List.mem_map] at h
    rcases h with h | h | h
    · injection h with h1 h2
      exact ⟨0, [], c, by simpa using h1, rfl, Or.inl ⟨rfl, h2⟩⟩
    · obtain ⟨p, hp, hpe⟩ := h
      injection hpe with h1 h2
      refine ⟨0, p.1, c, by simpa using h1.symm, rfl, Or.inr ?_⟩
      have hpe3 : (p.1, dd) = p := by rw [← h2]
      rw [hpe3]
      exact hp
    · obtain ⟨i, r, ch, hq, hnth, hcase⟩ := ih h
      refine ⟨i + 1, r, ch, ?_, by simpa [listNth] using hnth, hcase⟩
      rw [hq]
      congr 1
      omega

theorem getAt_data_of_mem_descPairs {q : List ℕ} {dd : NodeData} {t : NTree}
    (h : (q, dd) ∈ descPairs t) : (getAt q t).map NTree.data = some dd := by
  induction q generalizing t dd with
  | nil => exact absurd rfl (mem_descPairs_ne_nil h)
  | cons j r ih =>
    cases t with
    | node d cs =>
      rw [descPairs] at h
      obtain ⟨i, r2, c, hq, hnth, hcase⟩ := mem_descPairsList_elim h
      injection hq with hj hr
      subst hr
      have hj2 : j = i := by omega
      subst hj2
      rcases hcase with ⟨hr2, hdd⟩ | hmem
      · subst hr2
        simp [getAt, hnth, hdd, Option.map]
      · simp only [getAt, hnth]
        exact ih hmem

theorem descPairsList_firsts_nodup_aux :
    ∀ (cs : List NTree), (∀ c ∈ cs, ((descPairs c).map Prod.fst).Nodup) →
      ∀ k, ((descPairsList k cs).map Prod.fst).Nodup := by
  intro cs
  induction cs with
  | nil => intro _ k; simp [descPairsList]
  | cons c rest ih =>
    intro hall k
    have hc := hall c (List.mem_cons_self c rest)
    have hrest := ih (fun x hx => hall x (List.mem_cons_of_mem c hx))
    simp only [descPairsList, List.map_cons, List.map_append, List.map_map]
    rw [List.nodup_cons]
    constructor
    · intro hmem
      rcases List.mem_append.mp hmem with hA | hB
      · obtain ⟨p, hp, hpe⟩ := List.mem_map.mp hA
        have : p.1 = [] := by
          have := congrArg List.tail hpe
          simpa using this.symm
        exact mem_descPairs_ne_nil hp this
      · obtain ⟨p, hp, hpe⟩ := List.mem_map.mp hB
        obtain ⟨j, r, hjr, hk⟩ := mem_descPairsList_shape hp
        rw [hjr] at hpe
        injection hpe.symm with h1 _
        omega
    · refine List.Nodup.append ?_ (hrest (k + 1)) ?_
      · have : (List.map (Prod.fst ∘ fun q => (k :: q.1, q.2)) (descPairs c)) =
            List.map (fun l => k :: l) ((descPairs c).map Prod.fst) := by
          simp [List.map_map, Function.comp]
        rw [this]
        exact hc.map (fun a b hab => by injection hab)
      · intro x hx hy
        obtain ⟨p, hp, hpe⟩ := List.mem_map.mp hx
        obtain ⟨p2, hp2, hpe2⟩ := List.mem_map.mp hy
        obtain ⟨j, r, hjr, hk⟩ := mem_descPairsList_shape hp2
        rw [← hpe] at hpe2
        rw [hjr] at hpe2
        simp only [Function.comp] at hpe2
        injection hpe2 with h1 _
        omega

theorem descPairs_firsts_nodup : (t : NTree) → ((descPairs t).map Prod.fst).Nodup
  | .node d cs => by
    rw [descPairs]
    exact descPairsList_firsts_nodup_aux cs (fun c hc => descPairs_firsts_nodup c) 0
termination_by t => sizeOf t
decreasing_by
  have h1 := List.sizeOf_lt_of_mem hc
  simp only [NTree.node.sizeOf_spec]
  omega

/-! ### Element-path lemmas -/

theorem nodup_filterMap_basePaths (base : List ℕ) (P : NodeData → Bool)
    (l : List (List ℕ × NodeData)) (h : (l.map Prod.fst).Nodup) :
    (l.filterMap (fun p => if P p.2 then some (base ++ p.1) else none)).Nodup := by
  induction l with
  | nil => simp
  | cons p rest ih =>
    rw [List.map_cons, List.nodup_cons] at h
    cases hP : P p.2 with
    | false => simpa [List.filterMap_cons, hP] using ih h.2
    | true =>
      have heq : List.filterMap (fun p => if P p.2 = true then some (base ++ p.1) else none)
          (p :: rest)
          = (base ++ p.1) ::
            List.filterMap (fun p => if P p.2 = true then some (base ++ p.1) else none) rest := by
        simp [List.filterMap_cons, hP]
      rw [heq, List.nodup_cons]
      refine ⟨?_, ih h.2⟩
      intro hmem
      obtain ⟨p2, hp2, hpe⟩ := List.mem_filterMap.mp hmem
      by_cases h2 : P p2.2 = true
      · rw [if_pos h2] at hpe
        have hfst : p2.1 = p.1 := by
          have := Option.some.inj hpe
          exact List.append_cancel_left this
        exact h.1 (hfst ▸ List.mem_map_of_mem Prod.fst hp2)
      · rw [if_neg h2] at hpe
        cases hpe

theorem cloneToElementPaths_nodup (base : List ℕ) (t : NTree) :
    (cloneToElementPaths base t).Nodup := by
  unfold cloneToElementPaths
  by_cases h1 : t.data.tag = NodeTag.embroiderable
  · simp [h1]
  · rw [if_neg h1]
    by_cases h2 : t.data.tag = NodeTag.group
    · rw [if_pos h2]
      exact nodup_filterMap_basePaths base _ _ (descPairs_firsts_nodup t)
    · simp [h2]

theorem mem_cloneToElementPaths {base q : List ℕ} {t : NTree}
    (h : q ∈ cloneToElementPaths base t) :
    ∃ r dd, q = base ++ r ∧ (getAt r t).map NTree.data = some dd ∧
      dd.tag = NodeTag.embroiderable := by
  unfold cloneToElementPaths at h
  by_cases h1 : t.data.tag = NodeTag.embroiderable
  · rw [if_pos h1] at h
    simp only [List.mem_singleton] at h
    exact ⟨[], t.data, by simp [h], by simp [getAt], h1⟩
  · rw [if_neg h1] at h
    by_cases h2 : t.data.tag = NodeTag.group
    · rw [if_pos h2] at h
      obtain ⟨p, hp, hpe⟩ := List.mem_filterMap.mp h
      by_cases hy : nodeYieldsElement p.2 = true
      · rw [if_pos hy] at hpe
        refine ⟨p.1, p.2, (Option.some.inj hpe).symm, ?_, ?_⟩
        · exact getAt_data_of_mem_descPairs (by simpa using hp)
        · simpa [nodeYieldsElement] using hy
      · rw [if_neg hy] at hpe
        cases hpe
    · rw [if_neg h2] at h
      cases h

/-! ### Assignment-loop lemmas -/

theorem assignLoop_nil (angT : Option (Transform ℚ)) (fillAngle : Option ℚ) (flip : Bool)
    (d : NTree) : assignLoop angT fillAngle flip [] d = some (d, []) := rfl

theorem assignLoop_cons_override (angT : Option (Transform ℚ)) (phi : ℚ) (flip : Bool)
    (q : List ℕ) (qs : List (List ℕ)) (d : NTree) :
    assignLoop angT (some phi) flip (q :: qs) d =
      match assignLoop angT (some phi) flip qs
          (modifyAt q (fun dd => dd.setAngle (AVal.num (if flip then -phi else phi))) d) with
      | some (docF, rest) => some (docF, (q, AVal.num (if flip then -phi else phi)) :: rest)
      | none => none := rfl

theorem assignLoop_cons_derived (T : Transform ℚ) (flip : Bool)
    (q : List ℕ) (qs : List (List ℕ)) (d : NTree) :
    assignLoop (some T) none flip (q :: qs) d =
      match readAngleAt q d with
      | none => none
      | some aLocal =>
        match assignLoop (some T) none flip qs
            (modifyAt q (fun dd => dd.setAngle (AVal.derivedA T aLocal flip)) d) with
        | some (docF, rest) => some (docF, (q, AVal.derivedA T aLocal flip) :: rest)
        | none => none := by
  cases hread : readAngleAt q d <;> simp [assignLoop, hread]

theorem assignLoop_remove {qs : List (List ℕ)} {angT : Option (Transform ℚ)}
    {fillAngle : Option ℚ} {flip : Bool} {d dF : NTree} {asg : List (List ℕ × AVal)}
    {pp : List ℕ} {idx : ℕ}
    (hshape : ∀ q ∈ qs, ∃ r, q = (pp ++ [idx]) ++ r)
    (h : assignLoop angT fillAngle flip qs d = some (dF, asg)) :
    removeChildAt pp idx dF = removeChildAt pp idx d := by
  induction qs generalizing d asg with
  | nil =>
    rw [assignLoop_nil] at h
    simp only [Option.some.injEq, Prod.mk.injEq] at h
    rw [h.1]
  | cons q qs ih =>
    obtain ⟨r, hr⟩ := hshape q (List.mem_cons_self q qs)
    have hq : q = pp ++ idx :: r := by rw [hr, List.append_assoc]; rfl
    have hshape2 : ∀ x ∈ qs, ∃ r2, x = (pp ++ [idx]) ++ r2 :=
      fun x hx => hshape x (List.mem_cons_of_mem q hx)
    cases fillAngle with
    | some phi =>
      rw [assignLoop_cons_override] at h
      cases hrec : assignLoop angT (some phi) flip qs
          (modifyAt q (fun dd => dd.setAngle (AVal.num (if flip then -phi else phi))) d) with
      | none => rw [hrec] at h; cases h
      | some pr =>
        rw [hrec] at h
        obtain ⟨d2, rest⟩ := pr
        simp only [Option.some.injEq, Prod.mk.injEq] at h
        rw [h.1] at hrec
        rw [ih hshape2 hrec, hq, removeChildAt_modifyAt_inside]
    | none =>
      cases angT with
      | none => simp [assignLoop] at h
      | some T =>
        rw [assignLoop_cons_derived] at h
        cases hread : readAngleAt q d with
        | none => simp only [hread] at h; cases h
        | some aLocal =>
          simp only [hread] at h
          cases hrec : assignLoop (some T) none flip qs
              (modifyAt q (fun dd => dd.setAngle (AVal.derivedA T aLocal flip)) d) with
          | none => rw [hrec] at h; cases h
          | some pr =>
            rw [hrec] at h
            obtain ⟨d2, rest⟩ := pr
            simp only [Option.some.injEq, Prod.mk.injEq] at h
            rw [h.1] at hrec
            rw [ih hshape2 hrec, hq, removeChildAt_modifyAt_inside]

theorem assignLoop_data_frame {qs : List (List ℕ)} {angT : Option (Transform ℚ)}
    {fillAngle : Option ℚ} {flip : Bool} {d dF : NTree} {asg : List (List ℕ × AVal)}
    {q0 : List ℕ} (hne : ∀ q ∈ qs, q ≠ q0)
    (h : assignLoop angT fillAngle flip qs d = some (dF, asg)) :
    (getAt q0 dF).map NTree.data = (getAt q0 d).map NTree.data := by
  induction qs generalizing d asg with
  | nil =>
    rw [assignLoop_nil] at h
    simp only [Option.some.injEq, Prod.mk.injEq] at h
    rw [h.1]
  | cons q qs ih =>
    have hq0 : q0 ≠ q := fun he => hne q (List.mem_cons_self q qs) he.symm
    have hne2 : ∀ x ∈ qs, x ≠ q0 := fun x hx => hne x (List.mem_cons_of_mem q hx)
    cases fillAngle with
    | some phi =>
      rw [assignLoop_cons_override] at h
      cases hrec : assignLoop angT (some phi) flip qs
          (modifyAt q (fun dd => dd.setAngle (AVal.num (if flip then -phi else phi))) d) with
      | none => rw [hrec] at h; cases h
      | some pr =>
        rw [hrec] at h
        obtain ⟨d2, rest⟩ := pr
        simp only [Option.some.injEq, Prod.mk.injEq] at h
        rw [h.1] at hrec
        rw [ih hne2 hrec, getAt_data_modifyAt_ne _ d hq0]
    | none =>
      cases angT with
      | none => simp [assignLoop] at h
      | some T =>
        rw [assignLoop_cons_derived] at h
        cases hread : readAngleAt q d with
        | none => simp only [hread] at h; cases h
        | some aLocal =>
          simp only [hread] at h
          cases hrec : assignLoop (some T) none flip qs
              (modifyAt q (fun dd => dd.setAngle (AVal.derivedA T aLocal flip)) d) with
          | none => rw [hrec] at h; cases h
          | some pr =>
            rw [hrec] at h
            obtain ⟨d2, rest⟩ := pr
            simp only [Option.some.injEq, Prod.mk.injEq] at h
            rw [h.1] at hrec
            rw [ih hne2 hrec, getAt_data_modifyAt_ne _ d hq0]

theorem assignLoop_override_eq {qs : List (List ℕ)} {angT : Option (Transform ℚ)}
    {phi : ℚ} {flip : Bool} {d dF : NTree} {asg : List (List ℕ × AVal)}
    (h : assignLoop angT (some phi) flip qs d = some (dF, asg)) :
    asg = qs.map (fun q => (q, AVal.num (if flip then -phi else phi))) := by
  induction qs generalizing d asg with
  | nil =>
    rw [assignLoop_nil] at h
    simp only [Option.some.injEq, Prod.mk.injEq] at h
    rw [← h.2]
    rfl
  | cons q qs ih =>
    rw [assignLoop_cons_override] at h
    cases hrec : assignLoop angT (some phi) flip qs
        (modifyAt q (fun dd => dd.setAngle (AVal.num (if flip then -phi else phi))) d) with
    | none => rw [hrec] at h; cases h
    | some pr =>
      rw [hrec] at h
      obtain ⟨d2, rest⟩ := pr
      simp only [Option.some.injEq, Prod.mk.injEq] at h
      rw [h.1] at hrec
      rw [← h.2, List.map_cons, ih hrec]

theorem assignLoop_derived_spec {qs : List (List ℕ)} {T : Transform ℚ} {flip : Bool}
    {d dF : NTree} {asg : List (List ℕ × AVal)}
    (hnd : List.Pairwise (· ≠ ·) qs)
    (h : assignLoop (some T) none flip qs d = some (dF, asg)) :
    asg.map Prod.fst = qs ∧
      ∀ q v, (q, v) ∈ asg → ∃ a, readAngleAt q d = some a ∧ v = AVal.derivedA T a flip := by
  induction qs generalizing d asg with
  | nil =>
    rw [assignLoop_nil] at h
    simp only [Option.some.injEq, Prod.mk.injEq] at h
    rw [← h.2]
    exact ⟨rfl, by simp⟩
  | cons q qs ih =>
    rw [List.pairwise_cons] at hnd
    rw [assignLoop_cons_derived] at h
    cases hread : readAngleAt q d with
    | none => simp only [hread] at h; cases h
    | some aLocal =>
      simp only [hread] at h
      cases hrec : assignLoop (some T) none flip qs
          (modifyAt q (fun dd => dd.setAngle (AVal.derivedA T aLocal flip)) d) with
      | none => rw [hrec] at h; cases h
      | some pr =>
        rw [hrec] at h
        obtain ⟨d2, rest⟩ := pr
        simp only [Option.some.injEq, Prod.mk.injEq] at h
        rw [h.1] at hrec
        obtain ⟨hrest, hprop⟩ := ih hnd.2 hrec
        constructor
        · rw [← h.2, List.map_cons, hrest]
        · intro q2 v hmem
          rw [← h.2] at hmem
          rcases List.mem_cons.mp hmem with he | hm
          · injection he with he1 he2
            subst he1
            exact ⟨aLocal, hread, he2⟩
          · obtain ⟨a, ha, hv⟩ := hprop q2 v hm
            refine ⟨a, ?_, hv⟩
            have hq2mem : q2 ∈ qs := by
              rw [← hrest]
              exact List.mem_map_of_mem Prod.fst hm
            have hq2ne : q2 ≠ q := (hnd.1 q2 hq2mem).symm
            rw [← ha]
            exact (readAngleAt_congr_data (getAt_data_modifyAt_ne _ d hq2ne)).symm

/-! ### Further path lemmas -/

theorem modifyIdx_append_self {α : Type} (xs : List α) (y : α) (g : α → α) :
    modifyIdx xs.length g (xs ++ [y]) = xs ++ [g y] := by
  induction xs with
  | nil => rfl
  | cons x xs ih => simpa [modifyIdx] using ih

theorem initSegB_append_longer (p : List ℕ) (i : ℕ) : initSegB (p ++ [i]) p = false := by
  cases hseg : initSegB (p ++ [i]) p with
  | false => rfl
  | true =>
    obtain ⟨r, hr⟩ := initSegB_iff.mp hseg
    have := congrArg List.length hr
    simp at this

theorem getAt_modifyAt_split {pp q : List ℕ} {t n : NTree} (g : NodeData → NodeData)
    (h : getAt pp t = some n) :
    getAt pp (modifyAt (pp ++ q) g t) = some (modifyAt q g n) := by
  induction pp generalizing t with
  | nil =>
    cases t with
    | node d cs =>
      simp only [getAt, Option.some.injEq] at h
      subst h
      simp [getAt]
  | cons i pp ih =>
    cases t with
    | node d cs =>
      simp only [getAt] at h
      cases hc : listNth i cs with
      | none => simp [hc] at h
      | some ch =>
        simp only [hc] at h
        simp only [List.cons_append, modifyAt, getAt, listNth_modifyIdx, if_pos rfl, hc,
          Option.map]
        exact ih h

theorem getAt_cons_data_irrel (i : ℕ) (r : List ℕ) (d1 d2 : NodeData) (cs : List NTree) :
    getAt (i :: r) (NTree.node d1 cs) = getAt (i :: r) (NTree.node d2 cs) := rfl

theorem modifyAt_nil (g : NodeData → NodeData) (t : NTree) :
    modifyAt [] g t = NTree.node (g t.data) t.children := by
  cases t with
  | node d cs => rfl

/-- Value of the `inkstitch:angle` attribute read with default `0`, as a function
of the node attributes alone. -/
theorem readAngleAt_eq_of_angle {q1 q2 : List ℕ} {d1 d2 : NTree}
    (h : (getAt q1 d1).map (fun n => n.data.angle)
      = (getAt q2 d2).map (fun n => n.data.angle)) :
    readAngleAt q1 d1 = readAngleAt q2 d2 := by
  unfold readAngleAt
  cases h1 : getAt q1 d1 with
  | none =>
    cases h2 : getAt q2 d2 with
    | none => rfl
    | some n2 => rw [h1, h2] at h; cases h
  | some n1 =>
    cases h2 : getAt q2 d2 with
    | none => rw [h1, h2] at h; cases h
    | some n2 =>
      rw [h1, h2] at h
      simp only [Option.map, Option.some.injEq] at h
      simp [h]

/-! ### Characterization of a materialization run -/

theorem cloneElementsRun_master {doc : NTree} {clonePath : List ℕ} {run : CloneRun}
    {cnode snode : NTree} {sp : List ℕ}
    (hc : getAt clonePath doc = some cnode)
    (hh : cnode.data.href = some sp)
    (hs : getAt sp doc = some snode)
    (he : eligibleTag snode.data.tag = true)
    (hcp : clonePath ≠ [])
    (hrun : cloneElementsRun doc clonePath = some run) :
    ∃ parentNode doc2 copyNode docMid asg angT,
      getAt clonePath.dropLast doc = some parentNode ∧
      doc2 = modifyAt (clonePath.dropLast ++ [parentNode.children.length])
          (fun d => d.setTransform (cnode.data.transform.matmul snode.data.transform))
          (appendChildAt clonePath.dropLast snode doc) ∧
      getAt (clonePath.dropLast ++ [parentNode.children.length]) doc2 = some copyNode ∧
      run.elements = cloneToElementPaths (clonePath.dropLast ++ [parentNode.children.length])
        copyNode ∧
      run.midDoc = docMid ∧
      run.assigned = asg ∧
      run.angleTransform = angT ∧
      run.finalDoc = removeChildAt clonePath.dropLast parentNode.children.length docMid ∧
      ((∃ phi, cnode.data.cloneFillAngle = some phi ∧ angT = none ∧
          assignLoop none (some phi) cnode.data.flipAngle run.elements doc2
            = some (docMid, asg)) ∨
       (cnode.data.cloneFillAngle = none ∧
        ∃ Sc Cc, composedTransform sp doc2 = some Sc ∧
          composedTransform (clonePath.dropLast ++ [parentNode.children.length]) doc2
            = some Cc ∧
          angT = some ((Cc.matmul Sc.inkexNeg).stripTranslation) ∧
          assignLoop angT none cnode.data.flipAngle run.elements doc2
            = some (docMid, asg))) := by
  unfold cloneElementsRun at hrun
  simp only [hc, hh, hs, he] at hrun
  rw [if_neg (by simp)] at hrun
  rw [if_neg hcp] at hrun
  split at hrun
  · exact Option.noConfusion hrun
  · rename_i parentNode hP
    split at hrun
    · exact Option.noConfusion hrun
    · rename_i copyNode hcopy
      split at hrun
      · rename_i hfa
        split at hrun
        · rename_i Sc Cc hS hC
          split at hrun
          · rename_i pr docMid asg hasg
            refine ⟨parentNode, _, copyNode, docMid, asg,
              some ((Cc.matmul Sc.inkexNeg).stripTranslation), hP, rfl, hcopy, ?_, ?_, ?_, ?_, ?_,
              Or.inr ⟨hfa, Sc, Cc, hS, hC, rfl, ?_⟩⟩
            all_goals
              rw [← Option.some.inj hrun]
            all_goals first | rfl | exact hasg
          · exact Option.noConfusion hrun
        · rename_i hbad
          exact Option.noConfusion hrun
      · rename_i phi hfa
        split at hrun
        · rename_i pr docMid asg hasg
          refine ⟨parentNode, _, copyNode, docMid, asg, none, hP, rfl, hcopy, ?_, ?_, ?_, ?_, ?_,
            Or.inl ⟨phi, hfa, rfl, ?_⟩⟩
          all_goals
            rw [← Option.some.inj hrun]
          all_goals first | rfl | exact hasg
        · exact Option.noConfusion hrun

theorem cloneElementsRun_finalDoc {doc : NTree} {clonePath : List ℕ} {run : CloneRun}
    (hrun : cloneElementsRun doc clonePath = some run) : run.finalDoc = doc := by
  have hrun2 := hrun
  unfold cloneElementsRun at hrun2
  split at hrun2
  · exact Option.noConfusion hrun2
  · rename_i cnode hc
    split at hrun2
    · exact Option.noConfusion hrun2
    · rename_i sp hh
      split at hrun2
      · exact Option.noConfusion hrun2
      · rename_i snode hs
        by_cases he : eligibleTag snode.data.tag = false
        · rw [if_pos he] at hrun2
          rw [← Option.some.inj hrun2]
        · rw [if_neg he] at hrun2
          by_cases hcp : clonePath = []
          · rw [if_pos hcp] at hrun2
            exact Option.noConfusion hrun2
          · have he2 : eligibleTag snode.data.tag = true := by
              cases h0 : eligibleTag snode.data.tag with
              | true => rfl
              | false => exact absurd h0 he
            obtain ⟨pn, doc2, copyNode, docMid, asg, angT, hP, hdoc2, hcopy, helems, hmid,
              hasgE, hangT, hfin, hmode⟩ := cloneElementsRun_master hc hh hs he2 hcp hrun
            rw [hfin]
            have hshape : ∀ q ∈ run.elements,
                ∃ r, q = (clonePath.dropLast ++ [pn.children.length]) ++ r := by
              intro q hq
              rw [helems] at hq
              obtain ⟨r, dd, hqe, _, _⟩ := mem_cloneToElementPaths hq
              exact ⟨r, hqe⟩
            have hrm : removeChildAt clonePath.dropLast pn.children.length docMid
                = removeChildAt clonePath.dropLast pn.children.length doc2 := by
              rcases hmode with ⟨phi, _, _, hasg⟩ | ⟨_, Sc, Cc, _, _, _, hasg⟩
              · exact assignLoop_remove hshape hasg
              · exact assignLoop_remove hshape hasg
            rw [hrm, hdoc2]
            have hsplit : clonePath.dropLast ++ [pn.children.length]
                = clonePath.dropLast ++ pn.children.length :: [] := rfl
            rw [hsplit, removeChildAt_modifyAt_inside]
            exact removeChildAt_appendChildAt snode hP

theorem cloneElementsRun_midDoc_frame {doc : NTree} {clonePath : List ℕ} {run : CloneRun}
    (hrun : cloneElementsRun doc clonePath = some run) :
    ∀ q0 n, getAt q0 doc = some n →
      (getAt q0 run.midDoc).map NTree.data = some n.data := by
  intro q0 n hq0
  have hrun2 := hrun
  unfold cloneElementsRun at hrun2
  split at hrun2
  · exact Option.noConfusion hrun2
  · rename_i cnode hc
    split at hrun2
    · exact Option.noConfusion hrun2
    · rename_i sp hh
      split at hrun2
      · exact Option.noConfusion hrun2
      · rename_i snode hs
        by_cases he : eligibleTag snode.data.tag = false
        · rw [if_pos he] at hrun2
          rw [← Option.some.inj hrun2]
          simp [hq0]
        · rw [if_neg he] at hrun2
          by_cases hcp : clonePath = []
          · rw [if_pos hcp] at hrun2
            exact Option.noConfusion hrun2
          · have he2 : eligibleTag snode.data.tag = true := by
              cases h0 : eligibleTag snode.data.tag with
              | true => rfl
              | false => exact absurd h0 he
            obtain ⟨pn, doc2, copyNode, docMid, asg, angT, hP, hdoc2, hcopy, helems, hmid,
              hasgE, hangT, hfin, hmode⟩ := cloneElementsRun_master hc hh hs he2 hcp hrun
            rw [hmid]
            have hne : ∀ q ∈ run.elements, q ≠ q0 := by
              intro q hq heq
              rw [helems] at hq
              obtain ⟨r, dd, hqe, _, _⟩ := mem_cloneToElementPaths hq
              have hq2 : q = clonePath.dropLast ++ pn.children.length :: r := by
                rw [hqe, List.append_assoc]
                rfl
              exact getAt_ne_fresh_extension hP hq0 (heq ▸ hq2)
            have hstep1 : (getAt q0 docMid).map NTree.data = (getAt q0 doc2).map NTree.data := by
              rcases hmode with ⟨phi, _, _, hasg⟩ | ⟨_, Sc, Cc, _, _, _, hasg⟩
              · exact assignLoop_data_frame hne hasg
              · exact assignLoop_data_frame hne hasg
            rw [hstep1, hdoc2]
            have hne2 : q0 ≠ clonePath.dropLast ++ [pn.children.length] := by
              have := getAt_ne_fresh_extension (r := []) hP hq0
              simpa using this
            rw [getAt_data_modifyAt_ne _ _ hne2]
            exact getAt_data_appendChildAt snode hq0

theorem cloneElementsRun_override {doc : NTree} {clonePath : List ℕ} {run : CloneRun}
    {cnode snode : NTree} {sp : List ℕ} {phi : ℚ}
    (hc : getAt clonePath doc = some cnode)
    (hh : cnode.data.href = some sp)
    (hs : getAt sp doc = some snode)
    (he : eligibleTag snode.data.tag = true)
    (hcp : clonePath ≠ [])
    (hfa : cnode.data.cloneFillAngle = some phi)
    (hrun : cloneElementsRun doc clonePath = some run) :
    run.assigned = run.elements.map
      (fun q => (q, AVal.num (if cnode.data.flipAngle then -phi else phi))) := by
  obtain ⟨pn, doc2, copyNode, docMid, asg, angT, hP, hdoc2, hcopy, helems, hmid,
    hasgE, hangT, hfin, hmode⟩ := cloneElementsRun_master hc hh hs he hcp hrun
  rcases hmode with ⟨phi2, hfa2, _, hasg⟩ | ⟨hfa2, _⟩
  · rw [hfa] at hfa2
    have hphi : phi2 = phi := (Option.some.inj hfa2).symm
    subst hphi
    rw [hasgE]
    exact assignLoop_override_eq hasg
  · rw [hfa] at hfa2
    exact Option.noConfusion hfa2

theorem cloneElementsRun_derived {doc : NTree} {clonePath : List ℕ} {run : CloneRun}
    {cnode snode pn : NTree} {sp : List ℕ} {Pc Sc : Transform ℚ}
    (hc : getAt clonePath doc = some cnode)
    (hh : cnode.data.href = some sp)
    (hs : getAt sp doc = some snode)
    (he : eligibleTag snode.data.tag = true)
    (hcp : clonePath ≠ [])
    (hfa : cnode.data.cloneFillAngle = none)
    (hp : getAt clonePath.dropLast doc = some pn)
    (hPc : composedTransform clonePath.dropLast doc = some Pc)
    (hSc : composedTransform sp doc = some Sc)
    (hrun : cloneElementsRun doc clonePath = some run) :
    run.angleTransform = some
      (((Pc.matmul (cnode.data.transform.matmul snode.data.transform)).matmul
        Sc.inkexNeg).stripTranslation) ∧
    run.assigned.map Prod.fst = run.elements ∧
    (∀ q v, (q, v) ∈ run.assigned →
      ∃ r a, q = (clonePath.dropLast ++ [pn.children.length]) ++ r ∧
        readAngleAt (sp ++ r) doc = some a ∧
        v = AVal.derivedA
          (((Pc.matmul (cnode.data.transform.matmul snode.data.transform)).matmul
            Sc.inkexNeg).stripTranslation) a cnode.data.flipAngle) := by
  obtain ⟨pn2, doc2, copyNode, docMid, asg, angT, hP, hdoc2, hcopy, helems, hmid,
    hasgE, hangT, hfin, hmode⟩ := cloneElementsRun_master hc hh hs he hcp hrun
  rw [hp] at hP
  obtain rfl : pn = pn2 := Option.some.inj hP
  rcases hmode with ⟨phi2, hfa2, _, _⟩ | ⟨_, Sc2, Cc2, hS2, hC2, hangT2, hasg⟩
  · rw [hfa] at hfa2
    exact Option.noConfusion hfa2
  · -- identify the composed transforms computed inside the scope with those of the
    -- original document
    have hfreshS : initSegB (clonePath.dropLast ++ [pn.children.length]) sp = false :=
      not_initSeg_fresh hp hs
    have hS3 : composedTransform sp doc2 = some Sc := by
      rw [hdoc2]
      unfold composedTransform
      rw [composedFrom_modifyAt_of_not_initSeg _ _ hfreshS]
      exact composedFrom_appendChildAt snode hSc
    obtain rfl : Sc = Sc2 := by
      rw [hS3] at hS2
      exact Option.some.inj hS2
  -- the copy's composed transform in the working document
    have hd1 : getAt clonePath.dropLast (appendChildAt clonePath.dropLast snode doc)
        = some (NTree.node pn.data (pn.children ++ [snode])) :=
      getAt_appendChildAt_self snode hp
    have hd2 : getAt clonePath.dropLast doc2
        = some (modifyAt [pn.children.length]
            (fun d => d.setTransform (cnode.data.transform.matmul snode.data.transform))
            (NTree.node pn.data (pn.children ++ [snode]))) := by
      rw [hdoc2]
      exact getAt_modifyAt_split _ hd1
    have hmodify : modifyAt [pn.children.length]
        (fun d => d.setTransform (cnode.data.transform.matmul snode.data.transform))
        (NTree.node pn.data (pn.children ++ [snode]))
        = NTree.node pn.data (pn.children ++
            [NTree.node (snode.data.setTransform
              (cnode.data.transform.matmul snode.data.transform)) snode.children]) := by
      show NTree.node pn.data (modifyIdx pn.children.length
          (fun c => modifyAt []
            (fun d => d.setTransform (cnode.data.transform.matmul snode.data.transform)) c)
          (pn.children ++ [snode])) = _
      rw [modifyIdx_append_self, modifyAt_nil]
    have hPc2 : composedTransform clonePath.dropLast doc2 = some Pc := by
      rw [hdoc2]
      unfold composedTransform
      rw [composedFrom_modifyAt_of_not_initSeg _ _ (initSegB_append_longer _ _)]
      exact composedFrom_appendChildAt snode hPc
    have hC3 : composedTransform (clonePath.dropLast ++ [pn.children.length]) doc2
        = some (Pc.matmul (cnode.data.transform.matmul snode.data.transform)) := by
      rw [hmodify] at hd2
      unfold composedTransform
      refine composedFrom_extend (NTree.node (snode.data.setTransform
        (cnode.data.transform.matmul snode.data.transform)) snode.children) hd2 hPc2 ?_
      show listNth pn.children.length (pn.children ++ [_]) = _
      rw [listNth_append_self]
    obtain rfl : Pc.matmul (cnode.data.transform.matmul snode.data.transform) = Cc2 := by
      rw [hC3] at hC2
      exact Option.some.inj hC2
    refine ⟨by rw [hangT, hangT2], ?_, ?_⟩
    · -- every element receives exactly one assignment, in order
      have hnd : List.Pairwise (fun a b => a ≠ b) run.elements := by
        rw [helems]
        exact cloneToElementPaths_nodup _ _
      obtain ⟨hfst, _⟩ := assignLoop_derived_spec hnd (hangT2 ▸ hasg)
      rw [hasgE, hfst]
    · -- each assigned value records the angle transform and the element's original
      -- local angle, read from the source subtree in the original document
      intro q v hqv
      have hnd : List.Pairwise (fun a b => a ≠ b) run.elements := by
        rw [helems]
        exact cloneToElementPaths_nodup _ _
      obtain ⟨hfst, hmem⟩ := assignLoop_derived_spec hnd (hangT2 ▸ hasg)
      rw [hasgE] at hqv
      obtain ⟨a, hread, hv⟩ := hmem q v hqv
      have hqel : q ∈ run.elements := by
        rw [← hfst]
        exact List.mem_map_of_mem Prod.fst hqv
      rw [helems] at hqel
      obtain ⟨r, dd, hqe, _, _⟩ := mem_cloneToElementPaths hqel
      refine ⟨r, a, hqe, ?_, hv⟩
      -- the read inside the scope equals the read on the original source subtree
      rw [← hread]
      have hcopyVal : copyNode = NTree.node (snode.data.setTransform
          (cnode.data.transform.matmul snode.data.transform)) snode.children := by
        have hcg : getAt (clonePath.dropLast ++ [pn.children.length]) doc2
            = some (NTree.node (snode.data.setTransform
                (cnode.data.transform.matmul snode.data.transform)) snode.children) := by
          rw [getAt_append, hd2, hmodify]
          show (match listNth pn.children.length (pn.children ++ [_]) with
            | some c => getAt [] c
            | none => none) = _
          rw [listNth_append_self]
          rfl
        rw [hcopy] at hcg
        exact Option.some.inj hcg
      have hgq : getAt q doc2 = getAt r copyNode := by
        rw [hqe, getAt_append, hcopy]
        rfl
      have hgs : getAt (sp ++ r) doc = getAt r snode := by
        rw [getAt_append, hs]
        rfl
      apply readAngleAt_eq_of_angle
      rw [hgq, hgs, hcopyVal]
      cases r with
      | nil =>
        cases snode with
        | node sd scs => rfl
      | cons i r2 =>
        cases snode with
        | node sd scs => rfl

/-! ### Pipeline lemmas and concrete evaluations -/

theorem initSegB_append_weaken {a b c : List ℕ} (h : initSegB (a ++ b) c = true) :
    initSegB a c = true := by
  obtain ⟨r, rfl⟩ := initSegB_iff.mp h
  exact initSegB_iff.mpr ⟨b ++ r, by simp⟩

theorem toSGLoop_cons {E SG : Type} (f : List ℕ → Option SG → Except E (List SG))
    (q : List ℕ) (qs : List (List ℕ)) (lp : Option SG) (acc : List SG) :
    toSGLoop f (q :: qs) lp acc =
      match f q lp with
      | .error err => .error err
      | .ok [] => toSGLoop f qs lp acc
      | .ok (g :: gs) =>
        toSGLoop f qs (some ((g :: gs).getLast (List.cons_ne_nil g gs))) (acc ++ (g :: gs)) :=
  rfl

theorem pipeSpec_cons {SG : Type} (g : List ℕ → Option SG → List SG)
    (q : List ℕ) (qs : List (List ℕ)) (ctx : Option SG) :
    pipeSpec g (q :: qs) ctx =
      (g q ctx) ++ pipeSpec g qs
        (match g q ctx with
         | [] => ctx
         | h :: t => some ((h :: t).getLast (List.cons_ne_nil h t))) :=
  rfl

theorem toSGLoop_ok_acc {E SG : Type} (g : List ℕ → Option SG → List SG) :
    ∀ (qs : List (List ℕ)) (lp : Option SG) (acc : List SG),
      toSGLoop (E := E) (fun q c => Except.ok (g q c)) qs lp acc
        = Except.ok (acc ++ pipeSpec g qs lp) := by
  intro qs
  induction qs with
  | nil => intro lp acc; simp [toSGLoop, pipeSpec]
  | cons q qs ih =>
    intro lp acc
    rw [toSGLoop_cons, pipeSpec_cons]
    cases hg : g q lp with
    | nil =>
      simp only [hg]
      rw [ih]
      simp
    | cons x xs =>
      simp only [hg]
      rw [ih]
      simp

theorem runA_eval : cloneElementsRun docA [1] = some runA := by
  norm_num [cloneElementsRun, getAt, listNth, docA, srcA, cloneA, eligibleTag,
    appendChildAt, modifyAt, modifyIdx, composedTransform, composedFrom, Transform.matmul,
    Transform.inkexNeg, Transform.stripTranslation, Transform.ident, cloneToElementPaths,
    descPairs, descPairsList, nodeYieldsElement, assignLoop, readAngleAt, NodeData.setTransform,
    NodeData.setAngle, NTree.data, NTree.children, removeChildAt, eraseNth, runA, midA, copyA]

theorem runB_eval : cloneElementsRun docB [1] = some runB := by
  norm_num [cloneElementsRun, getAt, listNth, docB, srcA, cloneB, eligibleTag,
    appendChildAt, modifyAt, modifyIdx, composedTransform, composedFrom, Transform.matmul,
    Transform.inkexNeg, Transform.stripTranslation, Transform.ident, cloneToElementPaths,
    descPairs, descPairsList, nodeYieldsElement, assignLoop, readAngleAt, NodeData.setTransform,
    NodeData.setAngle, NTree.data, NTree.children, removeChildAt, eraseNth, runB, midB, copyB]

theorem runE_eval : cloneElementsRun docE [1] = some runE := by
  norm_num [cloneElementsRun, getAt, listNth, docE, grpE, e1, eligibleTag,
    appendChildAt, modifyAt, modifyIdx, composedTransform, composedFrom, Transform.matmul,
    Transform.inkexNeg, Transform.stripTranslation, Transform.ident, cloneToElementPaths,
    descPairs, descPairsList, nodeYieldsElement, assignLoop, readAngleAt, NodeData.setTransform,
    NodeData.setAngle, NTree.data, NTree.children, removeChildAt, eraseNth, runE, midE, copyE,
    e1M, List.filterMap_cons, List.filterMap_nil]
  decide

/-! ## Claim theorems -/

/-- C3: for every materialization, `to_stitch_groups` returns the document with
the duplicate removed (the document exactly as it was before the scope), paired
with the loop's outcome; in particular when stitch-group production raises a
failure partway through, the duplicate is removed from the document exactly
once and that original failure is the one propagated to the caller — the
teardown never masks it. -/
theorem spec_claim_C3 {doc : NTree} {clonePath : List ℕ} {run : CloneRun} {E SG : Type}
    (f : List ℕ → Option SG → Except E (List SG)) (lp : Option SG)
    (hrun : cloneElementsRun doc clonePath = some run) :
    toStitchGroupsRun f doc clonePath lp = some (doc, toSGLoop f run.elements lp []) ∧
    ∀ e, toSGLoop f run.elements lp [] = Except.error e →
      toStitchGroupsRun f doc clonePath lp = some (doc, Except.error e) := by
  have h1 : toStitchGroupsRun f doc clonePath lp
      = some (run.finalDoc, toSGLoop f run.elements lp []) := by
    unfold toStitchGroupsRun
    rw [hrun]
  rw [cloneElementsRun_finalDoc hrun] at h1
  exact ⟨h1, fun e he => by rw [h1, he]⟩

/-- Witness for C3: on a three-drawable group copy whose producer raises on the
second drawable, the caller sees the original failure and the document exactly
as before the scope. -/
theorem spec_claim_C3_witness :
    toStitchGroupsRun fE docE [1] (none : Option ℕ) = some (docE, Except.error 7) := by
  rw [(spec_claim_C3 fE (none : Option ℕ) runE_eval).1]
  have hloop : toSGLoop fE runE.elements (none : Option ℕ) [] = Except.error 7 := rfl
  rw [hloop]

/-- C5: the claimed `CyclicReference` detection does not exist in the code.  On
a document whose clone refers to itself (the direct clone-of-clone cycle), the
materialization silently takes the ineligible-source branch — a `use` tag is
neither embroiderable nor a group — and yields zero drawables with no failure
signal of any kind. -/
theorem spec_claim_C5_cycle_behavior :
    cloneElementsRun docD [0] = some ⟨[], [], none, docD, docD⟩ := rfl

/-- C6: materializing a clone whose source is neither embroiderable nor a group
yields the empty drawable list and performs no mutation at all: the document at
the yield point and after the scope is the input document itself (in
particular, no duplicate is created and the node count is unchanged). -/
theorem spec_claim_C6 {doc : NTree} {clonePath sp : List ℕ} {cnode snode : NTree}
    (hc : getAt clonePath doc = some cnode)
    (hh : cnode.data.href = some sp)
    (hs : getAt sp doc = some snode)
    (hin : eligibleTag snode.data.tag = false) :
    cloneElementsRun doc clonePath = some ⟨[], [], none, doc, doc⟩ := by
  unfold cloneElementsRun
  simp only [hc, hh, hs]
  rw [if_pos hin]

/-- Witness for C6 at a concrete ineligible source. -/
theorem spec_claim_C6_witness :
    cloneElementsRun docC [1] = some ⟨[], [], none, docC, docC⟩ :=
  @spec_claim_C6 docC [1] [0]
    (NTree.node ⟨NodeTag.use, Transform.ident, none, some [0], none, false⟩ [])
    srcC rfl rfl rfl rfl

/-- C7: the `to_stitch_groups` loop refines the spec's pipeline: drawables are
processed in order with the current last-patch context; a drawable yielding one
or more stitch groups appends them in order and moves the context to its final
group, a drawable yielding none leaves the context unchanged, and the output is
the order-preserving concatenation of all produced groups (`pipeSpec` is the
claim-side pipeline written from the spec's words). -/
theorem spec_claim_C7 {E SG : Type} (g : List ℕ → Option SG → List SG)
    (qs : List (List ℕ)) (lp : Option SG) :
    toSGLoop (E := E) (fun q c => Except.ok (g q c)) qs lp []
      = Except.ok (pipeSpec g qs lp) := by
  rw [toSGLoop_ok_acc]
  simp

/-- C8: a materialization scope treats every pre-existing node as read-only:
at the yield point every node of the original document is still present with
unchanged attributes (the transform and angle writes touch only the transient
duplicate subtree), and after the scope exits the document is exactly the
input document. -/
theorem spec_claim_C8 {doc : NTree} {clonePath : List ℕ} {run : CloneRun}
    (hrun : cloneElementsRun doc clonePath = some run) :
    run.finalDoc = doc ∧
    ∀ q n, getAt q doc = some n → (getAt q run.midDoc).map NTree.data = some n.data :=
  ⟨cloneElementsRun_finalDoc hrun, cloneElementsRun_midDoc_frame hrun⟩

/-- Witness for C8 on a concrete derived-mode run: the final document is the
input document and the source node's attributes are untouched at the yield. -/
theorem spec_claim_C8_witness :
    runA.finalDoc = docA ∧ (getAt [0] runA.midDoc).map NTree.data = some srcA.data :=
  ⟨(spec_claim_C8 runA_eval).1, (spec_claim_C8 runA_eval).2 [0] srcA rfl⟩

/-- C1 counterexample: already on the all-identity document `docA` the claim
fails.  The angle transform the code uses is the identity (first conjunct),
the duplicate's and the source's root-composed transforms at the yield point
are both the identity (second and third conjuncts), yet the claim's formula
`compose(T_copy_composed, negate_of(T_source_composed))` — with `negate_of` the
*additive* inverse of the linear block — evaluates to `(-1, 0, 0, -1, 0, 0)`,
which differs from the transform the code uses (fourth conjunct).  The code's
unary minus is inkex's matrix inverse, not a coefficient-wise negation. -/
theorem spec_claim_C1_counterexample :
    ((cloneElementsRun docA [1]).bind CloneRun.angleTransform)
      = some (⟨1, 0, 0, 1, 0, 0⟩ : Transform ℚ) ∧
    ((cloneElementsRun docA [1]).map (fun r => composedTransform [2] r.midDoc))
      = some (some (⟨1, 0, 0, 1, 0, 0⟩ : Transform ℚ)) ∧
    ((cloneElementsRun docA [1]).map (fun r => composedTransform [0] r.midDoc))
      = some (some (⟨1, 0, 0, 1, 0, 0⟩ : Transform ℚ)) ∧
    Transform.matmul (⟨1, 0, 0, 1, 0, 0⟩ : Transform ℚ)
      (negate_of (⟨1, 0, 0, 1, 0, 0⟩ : Transform ℚ)) ≠ (⟨1, 0, 0, 1, 0, 0⟩ : Transform ℚ) := by
  rw [runA_eval]
  refine ⟨rfl, ?_, ?_, ?_⟩
  · norm_num [composedTransform, composedFrom, midA, copyA, srcA, cloneA, listNth,
      Transform.matmul, Transform.ident, NTree.data]
  · norm_num [composedTransform, composedFrom, midA, copyA, srcA, cloneA, listNth,
      Transform.matmul, Transform.ident, NTree.data]
  · norm_num [Transform.matmul, negate_of, Transform.mk.injEq]

/-- C1 (amended): in derived mode the angle transform used for all of the
clone's drawables equals the composition of the duplicate's full root-composed
transform (`parent composed @ (clone transform @ source transform)`) with the
*matrix inverse* (inkex unary minus) — not the additive inverse — of the source
node's full root-composed transform, with the translation of the composite
zeroed afterwards. -/
theorem spec_claim_C1_amended {doc : NTree} {pp : List ℕ} {j : ℕ}
    {cnode snode pn : NTree} {sp : List ℕ} {Pc Sc : Transform ℚ} {run : CloneRun}
    (hc : getAt (pp ++ [j]) doc = some cnode)
    (hh : cnode.data.href = some sp)
    (hs : getAt sp doc = some snode)
    (he : eligibleTag snode.data.tag = true)
    (hfa : cnode.data.cloneFillAngle = none)
    (hp : getAt pp doc = some pn)
    (hPc : composedTransform pp doc = some Pc)
    (hSc : composedTransform sp doc = some Sc)
    (hrun : cloneElementsRun doc (pp ++ [j]) = some run) :
    run.angleTransform = some
      (((Pc.matmul (cnode.data.transform.matmul snode.data.transform)).matmul
        Sc.inkexNeg).stripTranslation) := by
  have hdl : (pp ++ [j]).dropLast = pp := by simp
  have hcp : pp ++ [j] ≠ [] := by simp
  exact (cloneElementsRun_derived hc hh hs he hcp hfa (by rw [hdl]; exact hp)
    (by rw [hdl]; exact hPc) hSc hrun).1

/-- Witness for the amended C1 on the concrete document `docA`. -/
theorem spec_claim_C1_amended_witness :
    runA.angleTransform = some
      ((((Transform.ident.matmul Transform.ident).matmul
          (cloneA.data.transform.matmul srcA.data.transform)).matmul
        ((Transform.ident.matmul Transform.ident).matmul
          Transform.ident).inkexNeg).stripTranslation) :=
  @spec_claim_C1_amended docA [] 1 cloneA srcA docA [0]
    (Transform.ident.matmul Transform.ident)
    ((Transform.ident.matmul Transform.ident).matmul Transform.ident)
    runA rfl rfl rfl rfl rfl rfl rfl rfl runA_eval

/-- C2: in derived mode (with `flip_angle` unset), every drawable of the
materialized copy is assigned exactly once (`assigned` covers `elements` in
order), and the value written for the drawable at relative path `r` inside the
copy is the derived angle for the angle transform and the drawable's
locally-declared angle — namely the attribute of the corresponding node of the
*original* source subtree, default `0` when absent — whose real value is
`-degrees(polar((angle_transform @ rotate(-a_local)).apply_to_point (1, 0)))`. -/
theorem spec_claim_C2 {doc : NTree} {pp : List ℕ} {j : ℕ}
    {cnode snode pn : NTree} {sp : List ℕ} {Pc Sc : Transform ℚ} {run : CloneRun}
    (hc : getAt (pp ++ [j]) doc = some cnode)
    (hh : cnode.data.href = some sp)
    (hs : getAt sp doc = some snode)
    (he : eligibleTag snode.data.tag = true)
    (hfa : cnode.data.cloneFillAngle = none)
    (hp : getAt pp doc = some pn)
    (hPc : composedTransform pp doc = some Pc)
    (hSc : composedTransform sp doc = some Sc)
    (hflip : cnode.data.flipAngle = false)
    (hrun : cloneElementsRun doc (pp ++ [j]) = some run) :
    run.assigned.map Prod.fst = run.elements ∧
    ∀ r v, ((pp ++ [pn.children.length]) ++ r, v) ∈ run.assigned →
      v = AVal.derivedA
          (((Pc.matmul (cnode.data.transform.matmul snode.data.transform)).matmul
            Sc.inkexNeg).stripTranslation)
          ((readAngleAt (sp ++ r) doc).getD 0) false ∧
      avalR v = -(degreesOf (atan2Angle
        (((toRT (((Pc.matmul (cnode.data.transform.matmul snode.data.transform)).matmul
            Sc.inkexNeg).stripTranslation)).matmul
          (rotateDeg (-(((readAngleAt (sp ++ r) doc).getD 0 : ℚ) : ℝ)))).applyToPoint
          (1, 0)))) := by
  have hdl : (pp ++ [j]).dropLast = pp := by simp
  have hcp : pp ++ [j] ≠ [] := by simp
  have hD := cloneElementsRun_derived hc hh hs he hcp hfa (by rw [hdl]; exact hp)
    (by rw [hdl]; exact hPc) hSc hrun
  rw [hdl] at hD
  obtain ⟨hT, hfst, hmem⟩ := hD
  refine ⟨hfst, ?_⟩
  intro r v hv
  obtain ⟨r2, a, hq, hread, hveq⟩ := hmem _ v hv
  obtain rfl : r = r2 := List.append_cancel_left hq
  rw [hread]
  rw [hflip] at hveq
  refine ⟨hveq, ?_⟩
  rw [hveq]
  simp [avalR]

/-- Witness for C2 on the concrete document `docA` (local angle absent, so
`a_local = 0`). -/
theorem spec_claim_C2_witness :
    runA.assigned.map Prod.fst = runA.elements ∧
    (AVal.derivedA ⟨1, 0, 0, 1, 0, 0⟩ 0 false
        = AVal.derivedA
            ((((Transform.ident.matmul Transform.ident).matmul
                (cloneA.data.transform.matmul srcA.data.transform)).matmul
              ((Transform.ident.matmul Transform.ident).matmul
                Transform.ident).inkexNeg).stripTranslation)
            ((readAngleAt ([0] ++ []) docA).getD 0) false ∧
      avalR (AVal.derivedA ⟨1, 0, 0, 1, 0, 0⟩ 0 false)
        = -(degreesOf (atan2Angle
            (((toRT ((((Transform.ident.matmul Transform.ident).matmul
                (cloneA.data.transform.matmul srcA.data.transform)).matmul
              ((Transform.ident.matmul Transform.ident).matmul
                Transform.ident).inkexNeg).stripTranslation)).matmul
              (rotateDeg (-(((readAngleAt ([0] ++ []) docA).getD 0 : ℚ) : ℝ)))).applyToPoint
              (1, 0))))) := by
  refine ⟨(@spec_claim_C2 docA [] 1 cloneA srcA docA [0]
      (Transform.ident.matmul Transform.ident)
      ((Transform.ident.matmul Transform.ident).matmul Transform.ident)
      runA rfl rfl rfl rfl rfl rfl rfl rfl rfl runA_eval).1, ?_⟩
  exact (@spec_claim_C2 docA [] 1 cloneA srcA docA [0]
      (Transform.ident.matmul Transform.ident)
      ((Transform.ident.matmul Transform.ident).matmul Transform.ident)
      runA rfl rfl rfl rfl rfl rfl rfl rfl rfl runA_eval).2 []
    (AVal.derivedA ⟨1, 0, 0, 1, 0, 0⟩ 0 false)
    (by simp [runA, docA, srcA, cloneA, NTree.children])

/-- C4: in override mode every drawable's written angle is exactly
`clone_fill_angle`, negated when `flip_angle` is set (so `45` with flip gives
`-45` for every drawable, independent of any transforms); and in derived mode
the flip likewise negates the derived value. -/
theorem spec_claim_C4 {doc : NTree} {clonePath sp : List ℕ} {cnode snode : NTree}
    {phi : ℚ} {run : CloneRun}
    (hc : getAt clonePath doc = some cnode)
    (hh : cnode.data.href = some sp)
    (hs : getAt sp doc = some snode)
    (he : eligibleTag snode.data.tag = true)
    (hcp : clonePath ≠ [])
    (hfa : cnode.data.cloneFillAngle = some phi)
    (hrun : cloneElementsRun doc clonePath = some run) :
    run.assigned = run.elements.map
      (fun q => (q, AVal.num (if cnode.data.flipAngle then -phi else phi))) ∧
    (∀ q v, (q, v) ∈ run.assigned →
      avalR v = (if cnode.data.flipAngle then -(phi : ℝ) else (phi : ℝ))) ∧
    (∀ t a, avalR (AVal.derivedA t a true) = -(avalR (AVal.derivedA t a false))) := by
  have h1 := cloneElementsRun_override hc hh hs he hcp hfa hrun
  refine ⟨h1, ?_, ?_⟩
  · intro q v hqv
    rw [h1] at hqv
    obtain ⟨q2, hq2, he2⟩ := List.mem_map.mp hqv
    injection he2 with _ he3
    rw [← he3]
    cases hflip : cnode.data.flipAngle <;> simp [avalR]
  · intro t a
    simp [avalR]

/-- Witness for C4: `clone_fill_angle = 45` with `flip_angle` set writes `-45`
for the drawable of `docB`; and the derived value flips sign under the flip. -/
theorem spec_claim_C4_witness :
    runB.assigned = runB.elements.map
      (fun q => (q, AVal.num (if cloneB.data.flipAngle then -(45 : ℚ) else 45))) ∧
    avalR (AVal.derivedA Transform.ident 30 true)
      = -(avalR (AVal.derivedA Transform.ident 30 false)) :=
  ⟨(@spec_claim_C4 docB [1] [0] cloneB srcA 45 runB
      rfl rfl rfl rfl (by simp) rfl runB_eval).1,
   (@spec_claim_C4 docB [1] [0] cloneB srcA 45 runB
      rfl rfl rfl rfl (by simp) rfl runB_eval).2.2 Transform.ident 30⟩

/-! ## C9: `angle_for_transform` on the identity and on pure rotations -/

theorem rotateDeg_not_flipped (θ : ℝ) : ¬ is_transform_flipped (rotateDeg θ) := by
  simp only [is_transform_flipped, rotateDeg]
  push_neg
  nlinarith [sq_nonneg (Real.sin (radiansOf θ)), sq_nonneg (Real.cos (radiansOf θ))]

theorem angle_for_transform_ident :
    angle_for_transform (Transform.ident : Transform ℝ) = 0 := by
  have hnf : ¬ is_transform_flipped ((Transform.ident : Transform ℝ).stripTranslation) := by
    norm_num [is_transform_flipped, Transform.ident, Transform.stripTranslation]
  have hpt : ((Transform.ident : Transform ℝ).stripTranslation).applyToPoint (1, 0)
      = ((1 : ℝ), (0 : ℝ)) := by
    simp [Transform.ident, Transform.stripTranslation, Transform.applyToPoint]
  simp only [angle_for_transform]
  rw [if_neg hnf, hpt]
  unfold atan2Angle degreesOf
  simp [Complex.arg_one]

theorem angle_for_transform_rotateDeg {θ : ℝ} (hθ : θ ∈ Set.Ioc (-180 : ℝ) 180) :
    angle_for_transform (rotateDeg θ) = θ := by
  have hπ := Real.pi_pos
  rw [Set.mem_Ioc] at hθ
  obtain ⟨hθ1, hθ2⟩ := hθ
  have hr : radiansOf θ ∈ Set.Ioc (-Real.pi) Real.pi := by
    rw [Set.mem_Ioc]
    unfold radiansOf
    constructor
    · nlinarith
    · nlinarith
  have hflip : ¬ is_transform_flipped ((rotateDeg θ).stripTranslation) :=
    rotateDeg_not_flipped θ
  have hpt : ((rotateDeg θ).stripTranslation).applyToPoint (1, 0)
      = (Real.cos (radiansOf θ), Real.sin (radiansOf θ)) := by
    simp [rotateDeg, Transform.stripTranslation, Transform.applyToPoint]
  have harg : atan2Angle (Real.cos (radiansOf θ), Real.sin (radiansOf θ)) = radiansOf θ := by
    unfold atan2Angle
    simp only [Complex.ofReal_cos, Complex.ofReal_sin]
    exact Complex.arg_cos_add_sin_mul_I hr
  simp only [angle_for_transform]
  rw [if_neg hflip, hpt, harg]
  unfold degreesOf radiansOf
  field_simp

theorem rotateDeg_add_360 (θ : ℝ) : rotateDeg (θ + 360) = rotateDeg θ := by
  unfold rotateDeg radiansOf
  rw [show (θ + 360) * Real.pi / 180 = θ * Real.pi / 180 + 2 * Real.pi by ring,
    Real.cos_add_two_pi, Real.sin_add_two_pi]

/-- C9: `angle_for_transform` returns `0` on the identity transform, and on a
pure rotation by `θ` degrees (the matrix `rotateDeg θ`: no reflection, no
scaling) it returns exactly `θ` whenever `θ` lies in atan2's range
`(-180, 180]`; together with the 360-periodicity of `rotateDeg`, every pure
rotation is `rotateDeg θ` for such a normalized `θ`, so the returned value is
the rotation angle normalized to `(-180, 180]`. -/
theorem spec_claim_C9 :
    angle_for_transform (Transform.ident : Transform ℝ) = 0 ∧
    (∀ θ : ℝ, θ ∈ Set.Ioc (-180 : ℝ) 180 → angle_for_transform (rotateDeg θ) = θ) ∧
    (∀ θ : ℝ, rotateDeg (θ + 360) = rotateDeg θ) :=
  ⟨angle_for_transform_ident, fun _ h => angle_for_transform_rotateDeg h, rotateDeg_add_360⟩

/-- Witness for C9: the inner hypothesis discharged at `θ = 90`. -/
theorem spec_claim_C9_witness :
    angle_for_transform (Transform.ident : Transform ℝ) = 0 ∧
    ((90 : ℝ) ∈ Set.Ioc (-180 : ℝ) 180 ∧ angle_for_transform (rotateDeg 90) = 90) :=
  ⟨spec_claim_C9.1,
   by rw [Set.mem_Ioc]; norm_num,
   spec_claim_C9.2.1 90 (by rw [Set.mem_Ioc]; norm_num)⟩

/-! ## C10: the cache key ignores the clone's own parameters -/

/-- C10: `get_cache_key_data` resolves the clone's source in the *original*
document and keys only on the source's elements; changing the clone node's own
`transform`, `clone_fill_angle` or `flip_angle` parameters (its source
reference and the rest of the document held fixed, the source subtree disjoint
from the clone node) leaves the returned cache-key list unchanged, for every
cache-key function `k` and every `previous_stitch`. -/
theorem spec_claim_C10 {doc cnode : NTree} {clonePath sp : List ℕ}
    (hc : getAt clonePath doc = some cnode)
    (hh : cnode.data.href = some sp)
    (h1 : initSegB sp clonePath = false)
    (h2 : initSegB clonePath sp = false) :
    ∀ {K PS : Type} (k : Option (Transform ℚ) → Option NTree → PS → K) (prev : PS)
      (t1 : Transform ℚ) (phi1 : Option ℚ) (fl1 : Bool),
      get_cache_key_data k
        (modifyAt clonePath (fun d => d.setCloneParams t1 phi1 fl1) doc) clonePath prev
      = get_cache_key_data k doc clonePath prev := by
  intro K PS k prev t1 phi1 fl1
  have hc2 : getAt clonePath (modifyAt clonePath (fun d => d.setCloneParams t1 phi1 fl1) doc)
      = some (NTree.node (cnode.data.setCloneParams t1 phi1 fl1) cnode.children) :=
    getAt_modifyAt_self _ hc
  have hh2 : (NTree.node (cnode.data.setCloneParams t1 phi1 fl1) cnode.children).data.href
      = some sp := hh
  have hsp : getAt sp (modifyAt clonePath (fun d => d.setCloneParams t1 phi1 fl1) doc)
      = getAt sp doc := getAt_modifyAt_of_not_initSeg _ _ h1
  unfold get_cache_key_data
  simp only [hc2, hc, hh2, hh, hsp]
  cases hs : getAt sp doc with
  | none => rfl
  | some snode =>
    refine congrArg some ?_
    apply List.map_congr_left
    intro q hq
    obtain ⟨r, dd, rfl, _, _⟩ := mem_cloneToElementPaths hq
    have hqc : initSegB (sp ++ r) clonePath = false := by
      cases hx : initSegB (sp ++ r) clonePath with
      | false => rfl
      | true => rw [initSegB_append_weaken hx] at h1; cases h1
    have hcq : initSegB clonePath (sp ++ r) = false := by
      cases hx : initSegB clonePath (sp ++ r) with
      | false => rfl
      | true =>
        rcases initSegB_total_of hx (initSegB_append_self sp r) with h | h
        · rw [h] at h2; cases h2
        · rw [h] at h1; cases h1
    simp only [composedTransform,
      getAt_modifyAt_of_not_initSeg (fun d => d.setCloneParams t1 phi1 fl1) doc hqc,
      composedFrom_modifyAt_of_not_initSeg (fun d => d.setCloneParams t1 phi1 fl1) doc hcq]

/-- Witness for C10: on `docA`, replacing the clone's transform by a scale and
setting `clone_fill_angle`/`flip_angle` leaves the cache-key list unchanged. -/
theorem spec_claim_C10_witness :
    get_cache_key_data k0
      (modifyAt [1] (fun d => d.setCloneParams ⟨2, 0, 0, 2, 0, 0⟩ (some 7) true) docA) [1] 3
    = get_cache_key_data k0 docA [1] 3 :=
  @spec_claim_C10 docA cloneA [1] [0] rfl rfl rfl rfl ℕ ℕ k0 3 ⟨2, 0, 0, 2, 0, 0⟩ (some 7) true
